import Mathlib

/-!
Verification of the StokerCloud Home Assistant integration
(`custom_components/stokercloud`): a shallow embedding of the API response
classification (`api.py`), the token guard (`__init__.py`), event shaping
(`__init__.py` / `api.py`) and the attribute truncation algorithm
(`sensor.py`), together with proofs of the behavioural claims about them.

Conventions of the embedding:
- JSON values are the inductive `JSON` below; numbers are modelled as `Int`
  (the claims under study never depend on fractional values).
- Python dicts are ordered association lists with (in well-formed payloads)
  unique keys; iteration order is list order, matching CPython insertion
  order.  `jGet` is `dict.get`, `dictSet` is `d[k] = v` (replace in place if
  the key exists, append otherwise).
- Python `==` against the scalar constants used by the source
  (`0`, `"0"`, `401`, `403`, `"401"`, `"403"`, `None`) is modelled by
  `pyEqNum` / `pyEqStr`; note that Python booleans compare equal to the
  integers 0 and 1.
- `str(x)` is modelled by `pyStr` (with `pyRepr` for containers, covering
  the printable fragment of the CPython repr).
- Exceptions are modelled by explicit result types per operation.
-/

namespace StokerCloud

/-- JSON values as parsed by `resp.json()`; object fields keep insertion
order, mirroring CPython dicts. -/
inductive JSON where
  | null
  | bool (b : Bool)
  | num (n : Int)
  | str (s : String)
  | arr (xs : List JSON)
  | obj (fs : List (String × JSON))

/-- Python `dict.get(key)`: the value stored under `key`, if present.
Association lists of well-formed payloads have unique keys, so first match
is the dict entry. -/
def jGet (fs : List (String × JSON)) (k : String) : Option JSON :=
  match fs.find? (fun kv => kv.1 = k) with
  | some kv => some kv.2
  | none => none

/-- Python `key in dict`. -/
def jHasKey (fs : List (String × JSON)) (k : String) : Bool :=
  fs.any (fun kv => kv.1 = k)

/-- Python `d[k] = v` on a dict: replace the value in place when the key is
present (keeping its position), append a new entry otherwise. -/
def dictSet (fs : List (String × JSON)) (k : String) (v : JSON) :
    List (String × JSON) :=
  match fs with
  | [] => [(k, v)]
  | (k1, v1) :: t =>
    if k1 = k then (k, v) :: t else (k1, v1) :: dictSet t k v

/-- Python `x == c` for a JSON value `x` and an integer constant `c`;
booleans equal 0 and 1 (CPython `bool` is an `int` subtype). -/
def pyEqNum (v : JSON) (c : Int) : Bool :=
  match v with
  | .num n => n = c
  | .bool b => (if b then (1 : Int) else 0) = c
  | _ => false

/-- Python `x == c` for a JSON value `x` and a string constant `c`. -/
def pyEqStr (v : JSON) (c : String) : Bool :=
  match v with
  | .str s => s = c
  | _ => false

/-- Single quote character. -/
def squote : Char := Char.ofNat 39

/-- Double quote character. -/
def dquote : Char := Char.ofNat 34

/-- Backslash character. -/
def bslash : Char := Char.ofNat 92

/-- Lowercase hexadecimal digit. -/
def hexDigit (n : Nat) : Char :=
  if n < 10 then Char.ofNat (48 + n) else Char.ofNat (87 + n)

/-- Two lowercase hex digits (for `\xHH` escapes in CPython repr). -/
def hex2 (n : Nat) : String :=
  String.mk [hexDigit (n / 16 % 16), hexDigit (n % 16)]

/-- Escape of one character inside a CPython string repr delimited by
`quote`: backslash and the delimiter are backslash-escaped, newline /
carriage return / tab use their short forms, other control characters use
`\xHH`, and printable characters stand for themselves. -/
def pyReprChar (quote : Char) (c : Char) : String :=
  if c = bslash then String.mk [bslash, bslash]
  else if c = quote then String.mk [bslash, quote]
  else if c = Char.ofNat 10 then String.mk [bslash, Char.ofNat 110]
  else if c = Char.ofNat 13 then String.mk [bslash, Char.ofNat 114]
  else if c = Char.ofNat 9 then String.mk [bslash, Char.ofNat 116]
  else if c.toNat < 32 ∨ c.toNat = 127 then
    String.mk [bslash, Char.ofNat 120] ++ hex2 c.toNat
  else String.singleton c

/-- CPython `repr` of a string: single-quoted, except double-quoted when the
string contains a single quote but no double quote. -/
def pyReprStr (s : String) : String :=
  let quote :=
    if (s.toList.contains squote) ∧ ¬ (s.toList.contains dquote)
    then dquote else squote
  String.singleton quote
    ++ String.join (s.toList.map (pyReprChar quote))
    ++ String.singleton quote

mutual

/-- CPython `repr` of a JSON-shaped value (used by `str` on containers). -/
def pyRepr : JSON → String
  | .null => "None"
  | .bool true => "True"
  | .bool false => "False"
  | .num n => toString n
  | .str s => pyReprStr s
  | .arr xs => "[" ++ pyReprItems xs ++ "]"
  | .obj fs => "\x7b" ++ pyReprFields fs ++ "\x7d"

/-- Comma-separated reprs of list elements. -/
def pyReprItems : List JSON → String
  | [] => ""
  | [x] => pyRepr x
  | x :: y :: t => pyRepr x ++ ", " ++ pyReprItems (y :: t)

/-- Comma-separated `key: value` reprs of dict entries. -/
def pyReprFields : List (String × JSON) → String
  | [] => ""
  | [(k, v)] => pyReprStr k ++ ": " ++ pyRepr v
  | (k, v) :: f :: t =>
    pyReprStr k ++ ": " ++ pyRepr v ++ ", " ++ pyReprFields (f :: t)

end

/-- Python `str(x)` of a JSON value: identity on strings, `None` / `True` /
`False` for the singletons, decimal for integers, repr for containers. -/
def pyStr : JSON → String
  | .null => "None"
  | .bool true => "True"
  | .bool false => "False"
  | .num n => toString n
  | .str s => s
  | .arr xs => pyRepr (.arr xs)
  | .obj fs => pyRepr (.obj fs)

/-- Lowercase one ASCII character. -/
def lowerChar (c : Char) : Char :=
  if 65 ≤ c.toNat ∧ c.toNat ≤ 90 then Char.ofNat (c.toNat + 32) else c

/-- ASCII lowercasing, matching Python `str.lower` on the ASCII texts the
server sends. -/
def pyLower (s : String) : String := String.mk (s.toList.map lowerChar)

/-- Test whether `pat` occurs at the head of `s`. -/
def charsBeginWith : List Char → List Char → Bool
  | _, [] => true
  | [], _ :: _ => false
  | c :: cs, p :: ps => c = p && charsBeginWith cs ps

/-- Test whether `pat` occurs anywhere in `s` (Python `pat in s`). -/
def charsHaveSub (s pat : List Char) : Bool :=
  match s with
  | [] => pat.isEmpty
  | _ :: cs => charsBeginWith s pat || charsHaveSub cs pat

/-- Python substring containment `pat in s`. -/
def strHasSub (s pat : String) : Bool :=
  charsHaveSub s.toList pat.toList

/-!  JSON serialization: `json.dumps(x, separators=(",", ":"),
ensure_ascii=False)` as used by `sensor._truncate_events_for_attributes`.
-/

/-- Escape of one character inside a JSON string literal with
`ensure_ascii=False`: quote and backslash are escaped, the five control
shorthands are used, remaining control characters become `\u00XX`, and every
other character stands for itself. -/
def jsonEscChar (c : Char) : String :=
  if c = dquote then String.mk [bslash, dquote]
  else if c = bslash then String.mk [bslash, bslash]
  else if c = Char.ofNat 10 then String.mk [bslash, Char.ofNat 110]
  else if c = Char.ofNat 13 then String.mk [bslash, Char.ofNat 114]
  else if c = Char.ofNat 9 then String.mk [bslash, Char.ofNat 116]
  else if c = Char.ofNat 8 then String.mk [bslash, Char.ofNat 98]
  else if c = Char.ofNat 12 then String.mk [bslash, Char.ofNat 102]
  else if c.toNat < 32 then
    String.mk [bslash, Char.ofNat 117] ++ "00" ++ hex2 c.toNat
  else String.singleton c

/-- JSON string literal for `s`. -/
def jsonQuote (s : String) : String :=
  String.singleton dquote
    ++ String.join (s.toList.map jsonEscChar)
    ++ String.singleton dquote

mutual

/-- Compact `json.dumps` of a JSON value, with separators `(",", ":")` and
`ensure_ascii=False`. -/
def dumps : JSON → String
  | .null => "null"
  | .bool true => "true"
  | .bool false => "false"
  | .num n => toString n
  | .str s => jsonQuote s
  | .arr xs => "[" ++ dumpsItems xs ++ "]"
  | .obj fs => "\x7b" ++ dumpsFields fs ++ "\x7d"

/-- Comma-separated dumps of array elements. -/
def dumpsItems : List JSON → String
  | [] => ""
  | [x] => dumps x
  | x :: y :: t => dumps x ++ "," ++ dumpsItems (y :: t)

/-- Comma-separated `"key":value` dumps of object fields. -/
def dumpsFields : List (String × JSON) → String
  | [] => ""
  | [(k, v)] => jsonQuote k ++ ":" ++ dumps v
  | (k, v) :: f :: t =>
    jsonQuote k ++ ":" ++ dumps v ++ "," ++ dumpsFields (f :: t)

end

/-!  API client (`api.py`): shared response classification, login, event
extraction and the event-data fetch result. -/

/-- Result of an API-client operation: success, `StokerCloudAuthError`, or a
plain `StokerCloudError` (the protocol error of the spec). -/
inductive SCResult (α : Type) where
  | ok (a : α)
  | auth (msg : String)
  | protocol (msg : String)

/-- Python `status in (None, 0, "0")` for the optional status field.  A
JSON null parses to Python `None`, so `dict.get` yields `None` both for an
absent field and for a present null one, and both pass the tuple test. -/
def isStatusZeroish (v : Option JSON) : Bool :=
  match v with
  | none => true
  | some .null => true
  | some v => pyEqNum v 0 || pyEqStr v "0"

/-- Python `status in (401, 403, "401", "403")`. -/
def isAuthStatus (v : Option JSON) : Bool :=
  match v with
  | none => false
  | some v =>
    pyEqNum v 401 || pyEqNum v 403 || pyEqStr v "401" || pyEqStr v "403"

/-- Check of `_request_json`: the lowercased message mentions a token
together with one of the rejection hints. -/
def tokenHint (lowered : String) : Bool :=
  strHasSub lowered "token" &&
    (strHasSub lowered "expired" || strHasSub lowered "invalid" ||
      strHasSub lowered "reject")

/-- Message text used by `_request_json`:
`str(payload.get("message", "Request failed"))`. -/
def requestMessage (fs : List (String × JSON)) : String :=
  pyStr ((jGet fs "message").getD (.str "Request failed"))

/-- Post-parse classification performed by `_request_json` on every JSON
response (lines 119-139 of `api.py`): a non-dict non-list payload is a
protocol error; a dict with a status outside `(None, 0, "0")` fails, as an
auth error when the status is 401/403 or the message carries a token hint,
and as a protocol error carrying the message otherwise; everything else
passes through. -/
def requestJsonClassify (payload : JSON) : SCResult JSON :=
  match payload with
  | .obj fs =>
    let status := jGet fs "status"
    if isStatusZeroish status then .ok (.obj fs)
    else
      let messageText := requestMessage fs
      if isAuthStatus status then .auth messageText
      else if tokenHint (pyLower messageText) then .auth messageText
      else .protocol messageText
  | .arr xs => .ok (.arr xs)
  | _ => .protocol "Unexpected response type"

/-- Login result dataclass of `api.py`. -/
structure LoginResult where
  token : String
  credentials : Option JSON
  master : Option JSON

/-- Outcome of `login` on a given parsed response payload; `pyError` marks
the unhandled `AttributeError` raised when `.get` is called on a list. -/
inductive LoginOutcome where
  | ok (r : LoginResult)
  | auth (msg : String)
  | protocol (msg : String)
  | pyError

/-- Python `x == c` where `x` is optional (`None == c` is false for an
integer constant `c`). -/
def pyOptEqNum (v : Option JSON) (c : Int) : Bool :=
  match v with
  | none => false
  | some v => pyEqNum v c

/-- Login of `api.py` (lines 39-51), applied to the parsed response payload
after `_request_json` classification: raises `StokerCloudAuthError` when
`data.get("status") != 0` (Python equality against the integer 0) or no
`"token"` key is present, and otherwise builds a `LoginResult` from
`str(data["token"])` and the optional fields. -/
def login (payload : JSON) : LoginOutcome :=
  match requestJsonClassify payload with
  | .auth m => .auth m
  | .protocol m => .protocol m
  | .ok (.obj fs) =>
    if ¬ pyOptEqNum (jGet fs "status") 0 ∨ ¬ jHasKey fs "token" then
      .auth (pyStr ((jGet fs "message").getD (.str "Login failed")))
    else
      .ok ⟨pyStr ((jGet fs "token").getD .null),
            jGet fs "credentials", jGet fs "master"⟩
  | .ok _ => .pyError

/-- Test whether a JSON value is an object (`isinstance(item, dict)`). -/
def isObjB : JSON → Bool
  | .obj _ => true
  | _ => false

/-- Keep only the object elements of an array. -/
def filterObjs (xs : List JSON) : List JSON := xs.filter isObjB

/-- Candidate field names probed by `_extract_events`, in order. -/
def eventKeys : List String :=
  ["events", "eventdata", "data", "items", "rows", "log"]

/-- First candidate key whose value in the payload is an array. -/
def firstKeyArray (fs : List (String × JSON)) : List String →
    Option (List JSON)
  | [] => none
  | k :: ks =>
    match jGet fs k with
    | some (.arr xs) => some xs
    | _ => firstKeyArray fs ks

/-- First array among the values that contains at least one object element
(the fallback scan of `_extract_events`). -/
def firstArrayWithObj : List JSON → Option (List JSON)
  | [] => none
  | .arr xs :: rest =>
    if xs.any isObjB then some xs else firstArrayWithObj rest
  | _ :: rest => firstArrayWithObj rest

/-- Event extraction heuristic `_extract_events` of `api.py` (lines
88-105). -/
def extract_events : JSON → List JSON
  | .arr xs => filterObjs xs
  | .obj fs =>
    (match firstKeyArray fs eventKeys with
     | some xs => filterObjs xs
     | none =>
       match firstArrayWithObj (fs.map Prod.snd) with
       | some xs => filterObjs xs
       | none => [])
  | _ => []

/-- Fetch of `geteventdata.php` (`fetch_event_data`, lines 69-75): classify
the response, then wrap it as `{"raw": payload, "events": extracted}`. -/
def fetch_event_data (payload : JSON) : SCResult (List (String × JSON)) :=
  match requestJsonClassify payload with
  | .auth m => .auth m
  | .protocol m => .protocol m
  | .ok p => .ok [("raw", p), ("events", .arr (extract_events p))]

/-!  Integration layer (`__init__.py`): translation annotations, the token
guard, and the event coordinator update. -/

/-- Lookup in the translation table (Python `value in translations` /
`translations[value]`). -/
def trLookup (tr : List (String × String)) (s : String) : Option String :=
  match tr.find? (fun kv => kv.1 = s) with
  | some kv => some kv.2
  | none => none

/-- Body of the `for key, value in event.items()` loop of
`_apply_translations`: when the value is a string present in the table,
store the translation under `"<key>_translated"` in the output dict. -/
def translateStep (tr : List (String × String))
    (out : List (String × JSON)) (kv : String × JSON) :
    List (String × JSON) :=
  match kv.2 with
  | .str s =>
    match trLookup tr s with
    | some t => dictSet out (kv.1 ++ "_translated") (.str t)
    | none => out
  | _ => out

/-- Translation of one event record by `_apply_translations`: start from
the shallow copy `dict(event)` and run the loop over the original record
items. -/
def translateEvent (tr : List (String × String))
    (ev : List (String × JSON)) : List (String × JSON) :=
  ev.foldl (translateStep tr) ev

/-- Translation pass `_apply_translations` of `__init__.py` (lines 45-55);
`tr = none` models a failed startup fetch, and an empty table is also
falsy. -/
def apply_translations (tr : Option (List (String × String)))
    (events : List (List (String × JSON))) : List (List (String × JSON)) :=
  match tr with
  | none => events
  | some t => if t.isEmpty then events else events.map (translateEvent t)

/-- Entries added (or overwritten) by the translation loop for one record:
one `"<key>_translated"` pair per original key whose value is a string
found in the table, in record order. -/
def eventAdds (tr : List (String × String))
    (ev : List (String × JSON)) : List (String × JSON) :=
  ev.filterMap fun kv =>
    match kv.2 with
    | .str s =>
      (trLookup tr s).map fun t => (kv.1 ++ "_translated", JSON.str t)
    | _ => none

/-- Result of applying a list of dict writes `ws` (distinct keys, in write
order) to the record `ev` by repeated dict assignment: entries of `ev`
whose key is written are replaced in place by the written value, all other
original entries are unchanged, and writes to keys not present in `ev` are
appended in write order.  With `ws := eventAdds tr ev` this is the
amended-claim description of one translated record. -/
def applyWrites (ev ws : List (String × JSON)) : List (String × JSON) :=
  (ev.map fun kv => (kv.1,
    ((ws.find? fun w => w.1 = kv.1).map Prod.snd).getD kv.2))
  ++ (ws.filter fun w => ! jHasKey ev w.1)

/-- Default event page size (`const.py`). -/
def DEFAULT_EVENT_COUNT : Int := 100

/-- Default event page offset (`const.py`). -/
def DEFAULT_EVENT_OFFSET : Int := 0

/-- Default translation language (`const.py`). -/
def DEFAULT_TRANSLATION_LANGUAGE : String := "uk"

/-- Post-fetch body of `_async_update_event_data` (lines 104-114 of
`__init__.py`): translate the object elements of the `"events"` list when
present, then stamp the request echoes and the `translations_loaded` flag
(`translations is not None`). -/
def updateEventData (tr : Option (List (String × String)))
    (data : List (String × JSON)) : List (String × JSON) :=
  let data1 :=
    match jGet data "events" with
    | some (.arr evs) =>
      let objs := evs.filterMap fun e =>
        match e with
        | .obj fs => some fs
        | _ => none
      dictSet data "events" (.arr ((apply_translations tr objs).map .obj))
    | _ => data
  dictSet
    (dictSet
      (dictSet
        (dictSet data1 "count" (.num DEFAULT_EVENT_COUNT))
        "offset" (.num DEFAULT_EVENT_OFFSET))
      "translation_language" (.str DEFAULT_TRANSLATION_LANGUAGE))
    "translations_loaded" (.bool tr.isSome)

/-- Outcome of one fetch attempt inside the token guard. -/
inductive FetchRes (α : Type) where
  | ok (a : α)
  | authErr (msg : String)
  | otherErr (msg : String)

/-- Outcome of a guarded call: success, `ConfigEntryAuthFailed` (the
AuthExhausted error of the spec), or a propagated non-auth error. -/
inductive GuardOutcome (α : Type) where
  | ok (a : α)
  | authExhausted (msg : String)
  | err (msg : String)

/-- Trace of one `_fetch_with_auth_retry` call: its outcome, how many
logins were issued, how many operation attempts ran, and the cached token
afterwards. -/
structure GuardRun (α : Type) where
  outcome : GuardOutcome α
  loginCount : Nat
  attemptCount : Nat
  finalToken : Option String

/-- Sequential semantics of `_fetch_with_auth_retry` (lines 57-76 of
`__init__.py`).  `token0` is the cached token, `loginTok i` the token
returned by the i-th login in this call (logins succeed in the scenarios of
the claims), and `fetcher i t` the outcome of the i-th attempt of the
operation when invoked with token `t`.  The code logs in lazily when no
token is cached, runs the operation, and on `StokerCloudAuthError` forces
one fresh login and retries exactly once; a second auth failure becomes
`ConfigEntryAuthFailed`, and any other error propagates. -/
def fetch_with_auth_retry {α : Type} (token0 : Option String)
    (loginTok : Nat → String) (fetcher : Nat → String → FetchRes α) :
    GuardRun α :=
  let acquired :=
    match token0 with
    | none => (loginTok 0, 1)
    | some t => (t, 0)
  let current := acquired.1
  let logins0 := acquired.2
  match fetcher 0 current with
  | .ok a => ⟨.ok a, logins0, 1, some current⟩
  | .otherErr m => ⟨.err m, logins0, 1, some current⟩
  | .authErr _ =>
    let current2 := loginTok logins0
    match fetcher 1 current2 with
    | .ok a => ⟨.ok a, logins0 + 1, 2, some current2⟩
    | .otherErr m => ⟨.err m, logins0 + 1, 2, some current2⟩
    | .authErr m2 => ⟨.authExhausted m2, logins0 + 1, 2, some current2⟩

/-!  Sensor layer (`sensor.py`): byte-bounded truncation of the event list
for the attribute payload. -/

/-- Attribute size ceiling `_MAX_STATE_ATTR_BYTES` of `sensor.py`. -/
def MAX_STATE_ATTR_BYTES : Nat := 16000

/-- Size measure `_size` of `_truncate_events_for_attributes`:
`len(json.dumps(candidate, separators=(",", ":"), ensure_ascii=False))`. -/
def encSize (events : List JSON) : Nat := (dumps (.arr events)).length

/-- Binary-search loop of `_truncate_events_for_attributes` (lines
432-440): Python integers are modelled by `Int`, `events[:mid]` by
`events.take mid.toNat` (the loop keeps `mid ≥ 1`). -/
def truncSearch (events : List JSON) (low high best : Int) : Int :=
  if low ≤ high then
    if encSize (events.take ((low + high) / 2).toNat) ≤
        MAX_STATE_ATTR_BYTES then
      truncSearch events ((low + high) / 2 + 1) high ((low + high) / 2)
    else
      truncSearch events low ((low + high) / 2 - 1) best
  else best
termination_by (high + 1 - low).toNat
decreasing_by all_goals omega

/-- Truncation `_truncate_events_for_attributes` of `sensor.py` (lines
420-442): empty input passes through, a list that fits is returned whole,
and otherwise the binary search over `[1, len(events)]` picks the prefix to
keep. -/
def truncate_events_for_attributes (events : List JSON) :
    List JSON × Bool :=
  match events with
  | [] => (events, false)
  | _ :: _ =>
    if encSize events ≤ MAX_STATE_ATTR_BYTES then (events, false)
    else
      let best := truncSearch events 1 (events.length : Int) 1
      (events.take best.toNat, true)

/-!  Concurrency model of the token guard.  `_fetch_with_auth_retry`
callers share `token` and `token_lock`; the claim concerns callers racing
through the token-acquisition critical section while their operations
succeed (no auth retry), so each task runs: acquire the lock; if no token
is cached, await `client.login` and store its token; read the token;
release the lock; run the fetch outside the lock.  Suspension points
(lock acquisition, the login await, the fetch await) delimit the atomic
steps, matching cooperative asyncio scheduling. -/

/-- Program counter of one guarded caller. -/
inductive TPC where
  | waiting
  | entered
  | loggingIn
  | fetching
  | finished
deriving DecidableEq

/-- One concurrent caller: its program counter and the token it read inside
the critical section. -/
structure TaskSt where
  pc : TPC
  observed : Option String

/-- Shared state: the cached token, the `asyncio.Lock`, the number of login
requests issued so far, and all callers. -/
structure GuardSt where
  token : Option String
  lockHeld : Bool
  logins : Nat
  tasks : List TaskSt

/-- Interleaving semantics of the critical section of
`_fetch_with_auth_retry`; `newTok i` is the token returned by login number
`i` (0-based).  A task is identified by its position `pre ++ task :: post`
in the task list. -/
inductive GuardStep (newTok : Nat → String) : GuardSt → GuardSt → Prop where
  | acquire (token : Option String) (logins : Nat) (obs : Option String)
      (pre post : List TaskSt) :
      GuardStep newTok
        ⟨token, false, logins, pre ++ ⟨.waiting, obs⟩ :: post⟩
        ⟨token, true, logins, pre ++ ⟨.entered, obs⟩ :: post⟩
  | loginBegin (lh : Bool) (logins : Nat) (obs : Option String)
      (pre post : List TaskSt) :
      GuardStep newTok
        ⟨none, lh, logins, pre ++ ⟨.entered, obs⟩ :: post⟩
        ⟨none, lh, logins + 1, pre ++ ⟨.loggingIn, obs⟩ :: post⟩
  | loginEnd (token : Option String) (lh : Bool) (logins : Nat)
      (obs : Option String) (pre post : List TaskSt) :
      GuardStep newTok
        ⟨token, lh, logins, pre ++ ⟨.loggingIn, obs⟩ :: post⟩
        ⟨some (newTok (logins - 1)), lh, logins, pre ++ ⟨.entered, obs⟩ :: post⟩
  | exitLock (t : String) (lh : Bool) (logins : Nat) (obs : Option String)
      (pre post : List TaskSt) :
      GuardStep newTok
        ⟨some t, lh, logins, pre ++ ⟨.entered, obs⟩ :: post⟩
        ⟨some t, false, logins, pre ++ ⟨.fetching, some t⟩ :: post⟩
  | fetchDone (token : Option String) (lh : Bool) (logins : Nat)
      (obs : Option String) (pre post : List TaskSt) :
      GuardStep newTok
        ⟨token, lh, logins, pre ++ ⟨.fetching, obs⟩ :: post⟩
        ⟨token, lh, logins, pre ++ ⟨.finished, obs⟩ :: post⟩

/-- Initial state: cached token `token0`, lock free, no logins issued, `n`
callers about to enter the guard. -/
def guardInit (token0 : Option String) (n : Nat) : GuardSt :=
  ⟨token0, false, 0, List.replicate n ⟨.waiting, none⟩⟩

/-- Reachability from the initial state under the interleaving
semantics. -/
def GuardReach (newTok : Nat → String) (token0 : Option String) (n : Nat)
    (s : GuardSt) : Prop :=
  Relation.ReflTransGen (GuardStep newTok) (guardInit token0 n) s

/-- Tasks inside the critical section. -/
def inCrit (t : TaskSt) : Bool :=
  match t.pc with
  | .entered => true
  | .loggingIn => true
  | _ => false

/-- Tasks with a login request in flight. -/
def isLoggingIn (t : TaskSt) : Bool :=
  match t.pc with
  | .loggingIn => true
  | _ => false

/-- Invariant of runs that start with no cached token: the lock admits at
most one task into the critical section (none when it is free), the login
counter is 0 until the token is written and 1 afterwards (counting the
in-flight login while it lasts), the token is only ever the result of
login 0, and every task past the critical section observed the current
token. -/
structure FreshInv (newTok : Nat → String) (s : GuardSt) : Prop where
  mutex : s.tasks.countP inCrit ≤ 1
  lockFree : s.lockHeld = false → s.tasks.countP inCrit = 0
  acctNone : s.token = none → s.logins = s.tasks.countP isLoggingIn
  acctSome : s.token.isSome = true → s.logins = 1
  tokVal : ∀ v, s.token = some v → v = newTok 0
  obsVal : ∀ t ∈ s.tasks, t.pc = .fetching ∨ t.pc = .finished →
    ∃ v, s.token = some v ∧ t.observed = some v

/-- Invariant of runs that start with a cached token `t0`: the token never
changes, no login is ever begun, and every task past the critical section
observed `t0`. -/
structure CachedInv (t0 : String) (s : GuardSt) : Prop where
  mutex : s.tasks.countP inCrit ≤ 1
  lockFree : s.lockHeld = false → s.tasks.countP inCrit = 0
  tokSame : s.token = some t0
  noLogin : s.logins = 0
  noInFlight : s.tasks.countP isLoggingIn = 0
  obsVal : ∀ t ∈ s.tasks, t.pc = .fetching ∨ t.pc = .finished →
    t.observed = some t0

/-!  Lemmas about the serialized size of event-list prefixes. -/

/-- Length of a dumped nonempty list in terms of its head and tail. -/
lemma dumpsItems_cons_length (x : JSON) (a : List JSON) :
    (dumpsItems (x :: a)).length =
      (dumps x).length +
        (match a with
         | [] => 0
         | _ :: _ => 1 + (dumpsItems a).length) := by
  cases a with
  | nil => simp [dumpsItems]
  | cons y t =>
    show (dumps x ++ "," ++ dumpsItems (y :: t)).length = _
    have hc : ("," : String).length = 1 := rfl
    simp only [String.length_append, hc]
    omega

/-- Dumping a prefix never yields a longer text than dumping the whole
list. -/
lemma dumpsItems_take_le (l : List JSON) :
    ∀ k : Nat, (dumpsItems (l.take k)).length ≤ (dumpsItems l).length := by
  induction l with
  | nil => intro k; simp
  | cons x t ih =>
    intro k
    cases k with
    | zero => simp [dumpsItems]
    | succ k =>
      rw [List.take_succ_cons, dumpsItems_cons_length, dumpsItems_cons_length]
      cases htk : t.take k with
      | nil =>
        cases t with
        | nil => simp
        | cons y t2 => simp only []; omega
      | cons z zs =>
        cases t with
        | nil => simp at htk
        | cons y t2 =>
          have := ih k
          rw [htk] at this
          simp only []
          omega

/-- Size of an encoded list in terms of its items. -/
lemma encSize_eq (l : List JSON) :
    encSize l = (dumpsItems l).length + 2 := by
  show (("[" ++ dumpsItems l) ++ "]").length = _
  have h1 : ("[" : String).length = 1 := rfl
  have h2 : ("]" : String).length = 1 := rfl
  simp only [String.length_append, h1, h2]
  omega

/-- Serialized prefixes never exceed the size of the whole list. -/
lemma encSize_take_le (l : List JSON) (k : Nat) :
    encSize (l.take k) ≤ encSize l := by
  rw [encSize_eq, encSize_eq]
  have := dumpsItems_take_le l k
  omega

/-- Serialized size is monotone in the prefix length. -/
lemma encSize_take_mono (l : List JSON) {j k : Nat} (h : j ≤ k) :
    encSize (l.take j) ≤ encSize (l.take k) := by
  have heq : l.take j = (l.take k).take j := by
    rw [List.take_take, Nat.min_eq_left h]
  rw [heq]
  exact encSize_take_le (l.take k) j

/-- Invariant of the binary-search loop: given that every prefix length
below `low` fits the budget, every one above `high` does not, and `best`
is the largest fitting length found so far (or the floor value 1), the
loop returns the maximal fitting prefix length in `[1, len]`, or 1 when
nothing fits. -/
lemma truncSearch_spec (l : List JSON) :
    ∀ (fuel : Nat) (low high best : Int),
    (high + 1 - low).toNat ≤ fuel →
    1 ≤ low → low ≤ high + 1 → high ≤ (l.length : Int) →
    (∀ k : Int, 1 ≤ k → k < low →
      encSize (l.take k.toNat) ≤ MAX_STATE_ATTR_BYTES) →
    (∀ k : Int, high < k → k ≤ (l.length : Int) →
      ¬ encSize (l.take k.toNat) ≤ MAX_STATE_ATTR_BYTES) →
    ((best = low - 1 ∧ 2 ≤ low) ∨ (best = 1 ∧ low = 1)) →
    1 ≤ truncSearch l low high best ∧
      truncSearch l low high best ≤ max 1 (l.length : Int) ∧
      (encSize (l.take (truncSearch l low high best).toNat) ≤
          MAX_STATE_ATTR_BYTES ∨ truncSearch l low high best = 1) ∧
      (∀ k : Int, truncSearch l low high best < k →
        k ≤ (l.length : Int) →
        ¬ encSize (l.take k.toNat) ≤ MAX_STATE_ATTR_BYTES) := by
  intro fuel
  induction fuel with
  | zero =>
    intro low high best hfuel hlow hlh hhn hbelow habove hbest
    have hterm : ¬ low ≤ high := by omega
    rw [truncSearch, if_neg hterm]
    rcases hbest with ⟨hb, h2⟩ | ⟨hb, h1⟩
    · subst hb
      refine ⟨by omega, ?_, Or.inl (hbelow (low - 1) (by omega) (by omega)),
        fun k hk hkn => habove k (by omega) hkn⟩
      rcases le_total 1 (l.length : Int) with hL | hL
      · rw [max_eq_right hL]; omega
      · rw [max_eq_left hL]; omega
    · subst hb
      exact ⟨by omega, le_max_left 1 _, Or.inr rfl,
        fun k hk hkn => habove k (by omega) hkn⟩
  | succ f ih =>
    intro low high best hfuel hlow hlh hhn hbelow habove hbest
    rw [truncSearch]
    by_cases hc : low ≤ high
    · rw [if_pos hc]
      have hmid1 : low ≤ (low + high) / 2 := by omega
      have hmid2 : (low + high) / 2 ≤ high := by omega
      by_cases hP : encSize (l.take (((low + high) / 2).toNat)) ≤
          MAX_STATE_ATTR_BYTES
      · rw [if_pos hP]
        refine ih ((low + high) / 2 + 1) high ((low + high) / 2)
          (by omega) (by omega) (by omega) hhn ?_ habove
          (Or.inl ⟨by omega, by omega⟩)
        intro k hk1 hk2
        by_cases hkl : k < low
        · exact hbelow k hk1 hkl
        · have hle : k.toNat ≤ ((low + high) / 2).toNat := by omega
          exact le_trans (encSize_take_mono l hle) hP
      · rw [if_neg hP]
        refine ih low ((low + high) / 2 - 1) best
          (by omega) hlow (by omega) (by omega) hbelow ?_ hbest
        intro k hk1 hk2
        by_cases hkh : high < k
        · exact habove k hkh hk2
        · intro hcontra
          apply hP
          have hle : ((low + high) / 2).toNat ≤ k.toNat := by omega
          exact le_trans (encSize_take_mono l hle) hcontra
    · rw [if_neg hc]
      rcases hbest with ⟨hb, h2⟩ | ⟨hb, h1⟩
      · subst hb
        refine ⟨by omega, ?_,
          Or.inl (hbelow (low - 1) (by omega) (by omega)),
          fun k hk hkn => habove k (by omega) hkn⟩
        rcases le_total 1 (l.length : Int) with hL | hL
        · rw [max_eq_right hL]; omega
        · rw [max_eq_left hL]; omega
      · subst hb
        exact ⟨by omega, le_max_left 1 _, Or.inr rfl,
          fun k hk hkn => habove k (by omega) hkn⟩

/-- Truncation on an input that fits the budget returns it whole. -/
lemma truncate_fits (l : List JSON)
    (h : encSize l ≤ MAX_STATE_ATTR_BYTES) :
    truncate_events_for_attributes l = (l, false) := by
  cases l with
  | nil => rfl
  | cons x t =>
    show (if encSize (x :: t) ≤ MAX_STATE_ATTR_BYTES then _ else _) = _
    rw [if_pos h]

/-- Truncation on an oversized input keeps the maximal fitting prefix in
`[1, len]` (or the single head element when even that is oversized) and
reports the overflow. -/
lemma truncate_big_spec (l : List JSON) (hl : l ≠ [])
    (hbig : ¬ encSize l ≤ MAX_STATE_ATTR_BYTES) :
    ∃ k : Nat,
      truncate_events_for_attributes l = (l.take k, true) ∧
      1 ≤ k ∧ k ≤ l.length ∧
      (encSize (l.take k) ≤ MAX_STATE_ATTR_BYTES ∨ k = 1) ∧
      ∀ j : Nat, k < j → j ≤ l.length →
        ¬ encSize (l.take j) ≤ MAX_STATE_ATTR_BYTES := by
  cases l with
  | nil => exact absurd rfl hl
  | cons x t =>
    have hn : 1 ≤ ((x :: t).length : Int) := by
      rw [List.length_cons]; omega
    have hspec := truncSearch_spec (x :: t)
      ((((x :: t).length : Int) + 1 - 1).toNat) 1 ((x :: t).length : Int) 1
      (by omega) (by omega) (by omega) (by omega)
      (by intro k hk1 hk2; omega)
      (by intro k hk1 hk2; omega)
      (Or.inr ⟨rfl, rfl⟩)
    obtain ⟨h1, h2, h3, h4⟩ := hspec
    rw [max_eq_right hn] at h2
    refine ⟨(truncSearch (x :: t) 1 ((x :: t).length : Int) 1).toNat, ?_,
      by omega, by omega, ?_, ?_⟩
    · show (if encSize (x :: t) ≤ MAX_STATE_ATTR_BYTES then _ else _) = _
      rw [if_neg hbig]
    · rcases h3 with h3 | h3
      · exact Or.inl h3
      · exact Or.inr (by omega)
    · intro j hj1 hj2
      have hj := h4 (j : Int) (by omega) (by omega)
      have : ((j : Int)).toNat = j := rfl
      rwa [this] at hj

/-- Claim C3: for every non-empty event list, truncation returns the
prefix of maximal length `k ∈ [1, len]` whose compact encoding fits the
budget of 16000 characters, keeping the single head element even when it
alone overflows; the overflow flag is false exactly when the whole list
fits.  Determinism and purity hold by construction, the result being a
Lean function of the input list. -/
theorem truncation_maximal_prefix (l : List JSON) (hl : l ≠ []) :
    ∃ k : Nat, 1 ≤ k ∧ k ≤ l.length ∧
      (truncate_events_for_attributes l).1 = l.take k ∧
      ((truncate_events_for_attributes l).2 = false ↔
        encSize l ≤ MAX_STATE_ATTR_BYTES) ∧
      (encSize (l.take k) ≤ MAX_STATE_ATTR_BYTES ∨ k = 1) ∧
      ∀ j : Nat, k < j → j ≤ l.length →
        ¬ encSize (l.take j) ≤ MAX_STATE_ATTR_BYTES := by
  by_cases hfit : encSize l ≤ MAX_STATE_ATTR_BYTES
  · refine ⟨l.length, ?_, le_refl _, ?_, ?_, ?_, ?_⟩
    · cases l with
      | nil => exact absurd rfl hl
      | cons x t => rw [List.length_cons]; omega
    · rw [truncate_fits l hfit, List.take_length]
    · rw [truncate_fits l hfit]
      simp [hfit]
    · exact Or.inl (by rw [List.take_length]; exact hfit)
    · intro j hj1 hj2; omega
  · obtain ⟨k, heq, hk1, hk2, hk3, hk4⟩ := truncate_big_spec l hl hfit
    refine ⟨k, hk1, hk2, ?_, ?_, hk3, hk4⟩
    · rw [heq]
    · rw [heq]
      simp [hfit]

/-- Witness for C3 at a concrete one-record list. -/
theorem truncation_maximal_prefix_witness :
    ∃ k : Nat, 1 ≤ k ∧ k ≤ [JSON.obj [("a", JSON.num 1)]].length ∧
      (truncate_events_for_attributes [JSON.obj [("a", JSON.num 1)]]).1 =
        [JSON.obj [("a", JSON.num 1)]].take k ∧
      ((truncate_events_for_attributes [JSON.obj [("a", JSON.num 1)]]).2 =
          false ↔
        encSize [JSON.obj [("a", JSON.num 1)]] ≤ MAX_STATE_ATTR_BYTES) ∧
      (encSize ([JSON.obj [("a", JSON.num 1)]].take k) ≤
          MAX_STATE_ATTR_BYTES ∨ k = 1) ∧
      ∀ j : Nat, k < j → j ≤ [JSON.obj [("a", JSON.num 1)]].length →
        ¬ encSize ([JSON.obj [("a", JSON.num 1)]].take j) ≤
            MAX_STATE_ATTR_BYTES :=
  truncation_maximal_prefix [JSON.obj [("a", JSON.num 1)]]
    (List.cons_ne_nil _ _)

/-- Claim C8: truncation is idempotent on the list component of its own
output, with the same (hard-coded) byte budget. -/
theorem truncation_idempotent (l : List JSON) :
    (truncate_events_for_attributes
      (truncate_events_for_attributes l).1).1 =
    (truncate_events_for_attributes l).1 := by
  by_cases hnil : l = []
  · subst hnil; rfl
  by_cases hfit : encSize l ≤ MAX_STATE_ATTR_BYTES
  · have h1 : (truncate_events_for_attributes l).1 = l := by
      rw [truncate_fits l hfit]
    rw [h1, truncate_fits l hfit]
  · obtain ⟨k, heq, hk1, hk2, hk3, hk4⟩ := truncate_big_spec l hnil hfit
    have h1 : (truncate_events_for_attributes l).1 = l.take k := by
      rw [heq]
    rw [h1]
    by_cases hfit2 : encSize (l.take k) ≤ MAX_STATE_ATTR_BYTES
    · rw [truncate_fits (l.take k) hfit2]
    · have hk : k = 1 := by
        rcases hk3 with h | h
        · exact absurd h hfit2
        · exact h
      subst hk
      have hne : l.take 1 ≠ [] := by
        cases l with
        | nil => exact absurd rfl hnil
        | cons x t => simp
      obtain ⟨k2, heq2, hk21, hk22, _, _⟩ :=
        truncate_big_spec (l.take 1) hne hfit2
      have hlen : (l.take 1).length = 1 := by
        cases l with
        | nil => exact absurd rfl hnil
        | cons x t => simp
      have hk2eq : k2 = 1 := by omega
      subst hk2eq
      have h2 : (truncate_events_for_attributes (l.take 1)).1 =
          (l.take 1).take 1 := by rw [heq2]
      rw [h2, List.take_take, Nat.min_self]

/-- Claim C10: truncation on the empty record list returns the empty list
with the overflow flag unset and no error, despite the binary-search space
`[1, 0]` being empty in that case. -/
theorem truncation_empty_input :
    truncate_events_for_attributes [] = ([], false) := rfl

/-!  Response classification (claim C2). -/

/-- Claim C2: classification of a JSON object response by `_request_json`.
A status that is absent, `0` or `"0"` never fails based on status: a
present JSON-null status also never fails, because `payload.get` collapses
it to Python `None`, which passes the tuple test (under Python equality,
JSON `false` also counts as 0); a 401/403 status, as number or string, is
an auth error; any other non-zero, non-null status is an auth error when
the lowercased message mentions a token with one of the hints
expired/invalid/reject, and otherwise a protocol error carrying the
message text. -/
theorem response_classification_by_status (fs : List (String × JSON)) :
    (jGet fs "status" = none →
      requestJsonClassify (.obj fs) = .ok (.obj fs)) ∧
    (jGet fs "status" = some .null →
      requestJsonClassify (.obj fs) = .ok (.obj fs)) ∧
    (∀ v, jGet fs "status" = some v →
      pyEqNum v 0 = true ∨ pyEqStr v "0" = true →
      requestJsonClassify (.obj fs) = .ok (.obj fs)) ∧
    (∀ v, jGet fs "status" = some v →
      pyEqNum v 401 = true ∨ pyEqNum v 403 = true ∨
        pyEqStr v "401" = true ∨ pyEqStr v "403" = true →
      requestJsonClassify (.obj fs) = .auth (requestMessage fs)) ∧
    (∀ v, jGet fs "status" = some v → v ≠ .null →
      pyEqNum v 0 = false → pyEqStr v "0" = false →
      pyEqNum v 401 = false → pyEqNum v 403 = false →
      pyEqStr v "401" = false → pyEqStr v "403" = false →
      (tokenHint (pyLower (requestMessage fs)) = true →
        requestJsonClassify (.obj fs) = .auth (requestMessage fs)) ∧
      (tokenHint (pyLower (requestMessage fs)) = false →
        requestJsonClassify (.obj fs) = .protocol (requestMessage fs))) := by
  refine ⟨?_, ?_, ?_, ?_, ?_⟩
  · intro h
    simp [requestJsonClassify, h, isStatusZeroish]
  · intro h
    simp [requestJsonClassify, h, isStatusZeroish]
  · intro v h hv
    have hz : isStatusZeroish (jGet fs "status") = true := by
      rw [h]
      rcases hv with hv | hv <;> cases v <;>
        simp_all [isStatusZeroish, pyEqNum, pyEqStr]
    simp [requestJsonClassify, hz]
  · intro v h hv
    have hz : isStatusZeroish (jGet fs "status") = false := by
      rw [h]
      cases v <;> rcases hv with hv | hv | hv | hv <;>
        simp_all [isStatusZeroish, pyEqNum, pyEqStr]
    have ha : isAuthStatus (jGet fs "status") = true := by
      rw [h]
      rcases hv with hv | hv | hv | hv <;> simp [isAuthStatus, hv]
    simp [requestJsonClassify, hz, ha]
  · intro v h hnull h0 hs0 h401 h403 hs401 hs403
    have hz : isStatusZeroish (jGet fs "status") = false := by
      rw [h]
      cases v with
      | null => exact absurd rfl hnull
      | bool b => simp [isStatusZeroish, h0, hs0]
      | num n => simp [isStatusZeroish, h0, hs0]
      | str s => simp [isStatusZeroish, h0, hs0]
      | arr xs => simp [isStatusZeroish, h0, hs0]
      | obj gs => simp [isStatusZeroish, h0, hs0]
    have ha : isAuthStatus (jGet fs "status") = false := by
      rw [h]; simp [isAuthStatus, h401, h403, hs401, hs403]
    constructor
    · intro hh
      simp [requestJsonClassify, hz, ha, hh]
    · intro hh
      simp [requestJsonClassify, hz, ha, hh]

/-- Witness for C2 at the concrete payload with status 401. -/
theorem response_classification_by_status_witness :
    requestJsonClassify (.obj [("status", JSON.num 401)]) =
      .auth "Request failed" :=
  (response_classification_by_status [("status", JSON.num 401)]).2.2.2.1
    (JSON.num 401) rfl (Or.inl rfl)

/-!  Token guard, sequential retry policy (claim C1). -/

/-- Claim C1: the retry policy of `_fetch_with_auth_retry`, starting from
the state the spec scenarios describe (no token cached yet, so the guard
first logs in lazily).  An operation whose first attempt raises an auth
error and whose retry succeeds costs exactly one extra login on top of the
initial one (two logins in total) and two attempts, and succeeds; when the
retry also raises an auth error, the same two logins and two attempts
occur and the caller receives the `ConfigEntryAuthFailed` terminal error;
a non-auth error propagates immediately after one attempt with no extra
login beyond the lazy initial one (and none at all when a token was
cached). -/
theorem token_guard_retry_policy {α : Type} (loginTok : Nat → String)
    (fetcher : Nat → String → FetchRes α) :
    (∀ m (a : α), (∀ t, fetcher 0 t = .authErr m) →
      (∀ t, fetcher 1 t = .ok a) →
      fetch_with_auth_retry none loginTok fetcher =
        ⟨.ok a, 2, 2, some (loginTok 1)⟩) ∧
    (∀ m m2, (∀ t, fetcher 0 t = .authErr m) →
      (∀ t, fetcher 1 t = .authErr m2) →
      fetch_with_auth_retry none loginTok fetcher =
        ⟨.authExhausted m2, 2, 2, some (loginTok 1)⟩) ∧
    (∀ m (token0 : Option String), (∀ t, fetcher 0 t = .otherErr m) →
      fetch_with_auth_retry token0 loginTok fetcher =
        ⟨.err m,
          match token0 with | none => 1 | some _ => 0,
          1,
          some (match token0 with | none => loginTok 0 | some t => t)⟩) := by
  refine ⟨?_, ?_, ?_⟩
  · intro m a h1 h2
    simp [fetch_with_auth_retry, h1, h2]
  · intro m m2 h1 h2
    simp [fetch_with_auth_retry, h1, h2]
  · intro m token0 h1
    cases token0 <;> simp [fetch_with_auth_retry, h1]

/-- Witness for C1: a concrete operation failing once with an auth error
and succeeding on retry. -/
theorem token_guard_retry_policy_witness :
    fetch_with_auth_retry (α := Nat) none (fun _ => "T")
      (fun i _ => if i = 0 then .authErr "expired" else .ok 5) =
      ⟨.ok 5, 2, 2, some "T"⟩ :=
  (token_guard_retry_policy (fun _ => "T")
      (fun i _ => if i = 0 then .authErr "expired" else .ok 5)).1
    "expired" 5 (fun _ => rfl) (fun _ => rfl)

/-!  Event extraction (claim C4). -/

/-- Probing the candidate keys returns the value of the first key bound to
an array when all earlier candidates are not bound to arrays. -/
lemma firstKeyArray_of_split (fs : List (String × JSON)) :
    ∀ (pre : List String) (k : String) (post : List String)
      (xs : List JSON),
    jGet fs k = some (.arr xs) →
    (∀ k2 ∈ pre, ∀ ys, jGet fs k2 ≠ some (.arr ys)) →
    firstKeyArray fs (pre ++ k :: post) = some xs := by
  intro pre
  induction pre with
  | nil =>
    intro k post xs hk hpre
    simp [firstKeyArray, hk]
  | cons k2 pre ih =>
    intro k post xs hk hpre
    have h2 := hpre k2 (List.mem_cons_self k2 pre)
    rw [List.cons_append]
    cases hk2 : jGet fs k2 with
    | none =>
      simp only [firstKeyArray, hk2]
      exact ih k post xs hk fun k3 h3 => hpre k3 (List.mem_cons_of_mem _ h3)
    | some v =>
      cases v with
      | arr ys => exact absurd hk2 (h2 ys)
      | null =>
        simp only [firstKeyArray, hk2]
        exact ih k post xs hk fun k3 h3 => hpre k3 (List.mem_cons_of_mem _ h3)
      | bool b =>
        simp only [firstKeyArray, hk2]
        exact ih k post xs hk fun k3 h3 => hpre k3 (List.mem_cons_of_mem _ h3)
      | num n =>
        simp only [firstKeyArray, hk2]
        exact ih k post xs hk fun k3 h3 => hpre k3 (List.mem_cons_of_mem _ h3)
      | str s =>
        simp only [firstKeyArray, hk2]
        exact ih k post xs hk fun k3 h3 => hpre k3 (List.mem_cons_of_mem _ h3)
      | obj gs =>
        simp only [firstKeyArray, hk2]
        exact ih k post xs hk fun k3 h3 => hpre k3 (List.mem_cons_of_mem _ h3)

/-- Probing the candidate keys fails when no candidate is bound to an
array. -/
lemma firstKeyArray_none (fs : List (String × JSON)) :
    ∀ ks : List String,
    (∀ k ∈ ks, ∀ ys, jGet fs k ≠ some (.arr ys)) →
    firstKeyArray fs ks = none := by
  intro ks
  induction ks with
  | nil => intro _; rfl
  | cons k ks ih =>
    intro h
    have hk := h k (List.mem_cons_self k ks)
    cases hget : jGet fs k with
    | none =>
      simp only [firstKeyArray, hget]
      exact ih fun k2 h2 => h k2 (List.mem_cons_of_mem _ h2)
    | some v =>
      cases v with
      | arr ys => exact absurd hget (hk ys)
      | null =>
        simp only [firstKeyArray, hget]
        exact ih fun k2 h2 => h k2 (List.mem_cons_of_mem _ h2)
      | bool b =>
        simp only [firstKeyArray, hget]
        exact ih fun k2 h2 => h k2 (List.mem_cons_of_mem _ h2)
      | num n =>
        simp only [firstKeyArray, hget]
        exact ih fun k2 h2 => h k2 (List.mem_cons_of_mem _ h2)
      | str s =>
        simp only [firstKeyArray, hget]
        exact ih fun k2 h2 => h k2 (List.mem_cons_of_mem _ h2)
      | obj gs =>
        simp only [firstKeyArray, hget]
        exact ih fun k2 h2 => h k2 (List.mem_cons_of_mem _ h2)

/-- Scanning the object values returns the first array containing an
object element when all earlier values are not such arrays. -/
lemma firstArrayWithObj_of_split :
    ∀ (pre : List JSON) (xs : List JSON) (post : List JSON),
    xs.any isObjB = true →
    (∀ w ∈ pre, ∀ ys, w = .arr ys → ys.any isObjB = false) →
    firstArrayWithObj (pre ++ .arr xs :: post) = some xs := by
  intro pre
  induction pre with
  | nil =>
    intro xs post hxs hpre
    simp [firstArrayWithObj, hxs]
  | cons w pre ih =>
    intro xs post hxs hpre
    have hw := hpre w (List.mem_cons_self w pre)
    have hrest : ∀ w2 ∈ pre, ∀ ys, w2 = .arr ys → ys.any isObjB = false :=
      fun w2 h2 => hpre w2 (List.mem_cons_of_mem _ h2)
    rw [List.cons_append]
    cases w with
    | arr ys =>
      have : ys.any isObjB = false := hw ys rfl
      simp only [firstArrayWithObj, this]
      simp only [Bool.false_eq_true, if_false]
      exact ih xs post hxs hrest
    | null => simp only [firstArrayWithObj]; exact ih xs post hxs hrest
    | bool b => simp only [firstArrayWithObj]; exact ih xs post hxs hrest
    | num n => simp only [firstArrayWithObj]; exact ih xs post hxs hrest
    | str s => simp only [firstArrayWithObj]; exact ih xs post hxs hrest
    | obj gs => simp only [firstArrayWithObj]; exact ih xs post hxs hrest

/-- Scanning the object values fails when no value is an array containing
an object element. -/
lemma firstArrayWithObj_none :
    ∀ vs : List JSON,
    (∀ w ∈ vs, ∀ ys, w = .arr ys → ys.any isObjB = false) →
    firstArrayWithObj vs = none := by
  intro vs
  induction vs with
  | nil => intro _; rfl
  | cons w vs ih =>
    intro h
    have hw := h w (List.mem_cons_self w vs)
    have hrest : ∀ w2 ∈ vs, ∀ ys, w2 = .arr ys → ys.any isObjB = false :=
      fun w2 h2 => h w2 (List.mem_cons_of_mem _ h2)
    cases w with
    | arr ys =>
      have : ys.any isObjB = false := hw ys rfl
      simp only [firstArrayWithObj, this]
      simp only [Bool.false_eq_true, if_false]
      exact ih hrest
    | null => simp only [firstArrayWithObj]; exact ih hrest
    | bool b => simp only [firstArrayWithObj]; exact ih hrest
    | num n => simp only [firstArrayWithObj]; exact ih hrest
    | str s => simp only [firstArrayWithObj]; exact ih hrest
    | obj gs => simp only [firstArrayWithObj]; exact ih hrest

/-- Claim C4: the event-extraction heuristic.  An array payload yields its
own object elements; an object payload yields the object elements of the
value of the first candidate key (events, eventdata, data, items, rows,
log, in order) that is bound to an array; failing that, those of the first
value in iteration order that is an array containing at least one object
element; failing that, the empty list.  Non-object elements of the chosen
array are always discarded, as on the concrete example payload. -/
theorem event_extraction_strategy :
    (∀ xs : List JSON, extract_events (.arr xs) = filterObjs xs) ∧
    (∀ (fs : List (String × JSON)) (pre : List String) (k : String)
        (post : List String) (xs : List JSON),
      eventKeys = pre ++ k :: post →
      jGet fs k = some (.arr xs) →
      (∀ k2 ∈ pre, ∀ ys, jGet fs k2 ≠ some (.arr ys)) →
      extract_events (.obj fs) = filterObjs xs) ∧
    (∀ (fs : List (String × JSON)) (pre : List JSON) (xs : List JSON)
        (post : List JSON),
      (∀ k ∈ eventKeys, ∀ ys, jGet fs k ≠ some (.arr ys)) →
      fs.map Prod.snd = pre ++ .arr xs :: post →
      xs.any isObjB = true →
      (∀ w ∈ pre, ∀ ys, w = .arr ys → ys.any isObjB = false) →
      extract_events (.obj fs) = filterObjs xs) ∧
    (∀ fs : List (String × JSON),
      (∀ k ∈ eventKeys, ∀ ys, jGet fs k ≠ some (.arr ys)) →
      (∀ w ∈ fs.map Prod.snd, ∀ ys, w = .arr ys → ys.any isObjB = false) →
      extract_events (.obj fs) = []) ∧
    (extract_events (.obj [("eventdata",
        .arr [.obj [("a", .num 1)], .str "skip", .obj [("b", .num 2)]])]) =
      [.obj [("a", .num 1)], .obj [("b", .num 2)]]) := by
  refine ⟨fun xs => rfl, ?_, ?_, ?_, rfl⟩
  · intro fs pre k post xs hsplit hk hpre
    have h1 : firstKeyArray fs eventKeys = some xs := by
      rw [hsplit]
      exact firstKeyArray_of_split fs pre k post xs hk hpre
    simp [extract_events, h1]
  · intro fs pre xs post hkeys hmap hxs hpre
    have h1 : firstKeyArray fs eventKeys = none :=
      firstKeyArray_none fs eventKeys hkeys
    have h2 : firstArrayWithObj (fs.map Prod.snd) = some xs := by
      rw [hmap]
      exact firstArrayWithObj_of_split pre xs post hxs hpre
    simp [extract_events, h1, h2]
  · intro fs hkeys hvals
    have h1 : firstKeyArray fs eventKeys = none :=
      firstKeyArray_none fs eventKeys hkeys
    have h2 : firstArrayWithObj (fs.map Prod.snd) = none :=
      firstArrayWithObj_none (fs.map Prod.snd) hvals
    simp [extract_events, h1, h2]

/-- Witness for C4: the candidate-key clause applied to the example
payload, whose only earlier candidate (events) is absent. -/
theorem event_extraction_strategy_witness :
    extract_events (.obj [("eventdata",
        .arr [.obj [("a", .num 1)], .str "skip", .obj [("b", .num 2)]])]) =
      filterObjs [.obj [("a", .num 1)], .str "skip", .obj [("b", .num 2)]] :=
  event_extraction_strategy.2.1
    [("eventdata",
       .arr [.obj [("a", .num 1)], .str "skip", .obj [("b", .num 2)]])]
    ["events"] "eventdata" ["data", "items", "rows", "log"]
    [.obj [("a", .num 1)], .str "skip", .obj [("b", .num 2)]]
    rfl rfl
    (by
      intro k2 hk2 ys h
      have hk2e : k2 = "events" := List.mem_singleton.mp hk2
      subst hk2e
      simp [jGet] at h)

/-!  Translation annotations (claim C5).  The loop stores each
translation with a dict assignment, so an original field literally named
`<key>_translated` is overwritten rather than preserved; the claim as
stated is therefore refuted by such a record, and the preserved-plus-added
characterization below holds for records free of that collision. -/

/-- Dict assignment with a key not yet present appends the entry. -/
lemma dictSet_fresh (fs : List (String × JSON)) (k : String) (v : JSON)
    (h : jHasKey fs k = false) : dictSet fs k v = fs ++ [(k, v)] := by
  induction fs with
  | nil => rfl
  | cons kv t ih =>
    obtain ⟨k1, v1⟩ := kv
    rw [jHasKey, List.any_cons] at h
    obtain ⟨h1, h2⟩ := Bool.or_eq_false_iff.mp h
    have hne : ¬ (k1 = k) := of_decide_eq_false h1
    show (if k1 = k then _ else _) = _
    rw [if_neg hne, List.cons_append]
    exact congrArg _ (ih h2)

/-- Key membership distributes over dict append. -/
lemma jHasKey_append (fs gs : List (String × JSON)) (k : String) :
    jHasKey (fs ++ gs) k = (jHasKey fs k || jHasKey gs k) :=
  List.any_append

/-- Appending the suffix `_translated` is injective on key names. -/
lemma translated_key_inj {a b : String}
    (h : a ++ "_translated" = b ++ "_translated") : a = b := by
  have hd := congrArg String.data h
  rw [String.data_append, String.data_append] at hd
  exact String.ext (List.append_cancel_right hd)

/-- Running the translation loop over `rest` starting from accumulator
`acc` appends exactly the derived entries of `rest`, provided the keys of
`rest` are distinct and no derived key is already present in `acc`. -/
lemma translate_foldl (tr : List (String × String)) :
    ∀ (rest acc : List (String × JSON)),
    (rest.map Prod.fst).Nodup →
    (∀ kv ∈ rest, ∀ s, kv.2 = .str s → (trLookup tr s).isSome = true →
      jHasKey acc (kv.1 ++ "_translated") = false) →
    rest.foldl (translateStep tr) acc = acc ++ eventAdds tr rest := by
  intro rest
  induction rest with
  | nil => intro acc _ _; simp [eventAdds]
  | cons kv rest ih =>
    intro acc hnd hfresh
    rw [List.foldl_cons]
    have hndtail : (rest.map Prod.fst).Nodup := by
      rw [List.map_cons, List.nodup_cons] at hnd
      exact hnd.2
    have hhead : kv.1 ∉ rest.map Prod.fst := by
      rw [List.map_cons, List.nodup_cons] at hnd
      exact hnd.1
    cases hkv : kv.2 with
    | str s =>
      cases hlook : trLookup tr s with
      | none =>
        have hstep : translateStep tr acc kv = acc := by
          simp [translateStep, hkv, hlook]
        have hadds : eventAdds tr (kv :: rest) = eventAdds tr rest := by
          simp [eventAdds, List.filterMap_cons, hkv, hlook]
        rw [hstep, hadds]
        exact ih acc hndtail fun kv2 h2 =>
          hfresh kv2 (List.mem_cons_of_mem _ h2)
      | some t =>
        have hk := hfresh kv (List.mem_cons_self kv rest) s hkv
          (by rw [hlook]; rfl)
        have hstep : translateStep tr acc kv =
            acc ++ [(kv.1 ++ "_translated", JSON.str t)] := by
          simp only [translateStep, hkv, hlook]
          exact dictSet_fresh acc _ _ hk
        have hadds : eventAdds tr (kv :: rest) =
            (kv.1 ++ "_translated", JSON.str t) :: eventAdds tr rest := by
          simp [eventAdds, List.filterMap_cons, hkv, hlook]
        rw [hstep, hadds]
        have hfresh2 : ∀ kv2 ∈ rest, ∀ s2, kv2.2 = .str s2 →
            (trLookup tr s2).isSome = true →
            jHasKey (acc ++ [(kv.1 ++ "_translated", JSON.str t)])
              (kv2.1 ++ "_translated") = false := by
          intro kv2 h2 s2 hs2 hl2
          rw [jHasKey_append]
          have hA := hfresh kv2 (List.mem_cons_of_mem _ h2) s2 hs2 hl2
          have hB : jHasKey [(kv.1 ++ "_translated", JSON.str t)]
              (kv2.1 ++ "_translated") = false := by
            rw [jHasKey, List.any_cons, List.any_nil]
            have hne : ¬ (kv.1 ++ "_translated" = kv2.1 ++ "_translated") := by
              intro hcontra
              exact hhead (translated_key_inj hcontra ▸
                List.mem_map_of_mem Prod.fst h2)
            simp [hne]
          rw [hA, hB]
          rfl
        rw [ih (acc ++ [(kv.1 ++ "_translated", JSON.str t)]) hndtail hfresh2]
        rw [List.append_assoc]
        rfl
    | null =>
      have hstep : translateStep tr acc kv = acc := by
        simp [translateStep, hkv]
      have hadds : eventAdds tr (kv :: rest) = eventAdds tr rest := by
        simp [eventAdds, List.filterMap_cons, hkv]
      rw [hstep, hadds]
      exact ih acc hndtail fun kv2 h2 =>
        hfresh kv2 (List.mem_cons_of_mem _ h2)
    | bool b =>
      have hstep : translateStep tr acc kv = acc := by
        simp [translateStep, hkv]
      have hadds : eventAdds tr (kv :: rest) = eventAdds tr rest := by
        simp [eventAdds, List.filterMap_cons, hkv]
      rw [hstep, hadds]
      exact ih acc hndtail fun kv2 h2 =>
        hfresh kv2 (List.mem_cons_of_mem _ h2)
    | num n =>
      have hstep : translateStep tr acc kv = acc := by
        simp [translateStep, hkv]
      have hadds : eventAdds tr (kv :: rest) = eventAdds tr rest := by
        simp [eventAdds, List.filterMap_cons, hkv]
      rw [hstep, hadds]
      exact ih acc hndtail fun kv2 h2 =>
        hfresh kv2 (List.mem_cons_of_mem _ h2)
    | arr xs =>
      have hstep : translateStep tr acc kv = acc := by
        simp [translateStep, hkv]
      have hadds : eventAdds tr (kv :: rest) = eventAdds tr rest := by
        simp [eventAdds, List.filterMap_cons, hkv]
      rw [hstep, hadds]
      exact ih acc hndtail fun kv2 h2 =>
        hfresh kv2 (List.mem_cons_of_mem _ h2)
    | obj gs =>
      have hstep : translateStep tr acc kv = acc := by
        simp [translateStep, hkv]
      have hadds : eventAdds tr (kv :: rest) = eventAdds tr rest := by
        simp [eventAdds, List.filterMap_cons, hkv]
      rw [hstep, hadds]
      exact ih acc hndtail fun kv2 h2 =>
        hfresh kv2 (List.mem_cons_of_mem _ h2)

/-- Runs of the translation loop in which no field matches the table leave
the accumulator unchanged. -/
lemma translate_foldl_nomatch (tr : List (String × String)) :
    ∀ (rest acc : List (String × JSON)),
    (∀ kv ∈ rest, ∀ s, kv.2 = .str s → trLookup tr s = none) →
    rest.foldl (translateStep tr) acc = acc := by
  intro rest
  induction rest with
  | nil => intro acc _; rfl
  | cons kv rest ih =>
    intro acc h
    rw [List.foldl_cons]
    have hstep : translateStep tr acc kv = acc := by
      cases hkv : kv.2 with
      | str s =>
        have := h kv (List.mem_cons_self kv rest) s hkv
        simp [translateStep, hkv, this]
      | null => simp [translateStep, hkv]
      | bool b => simp [translateStep, hkv]
      | num n => simp [translateStep, hkv]
      | arr xs => simp [translateStep, hkv]
      | obj gs => simp [translateStep, hkv]
    rw [hstep]
    exact ih acc fun kv2 h2 => h kv2 (List.mem_cons_of_mem _ h2)

/-- Translation loop over a record as a fold of dict writes: the per-item
steps that act are exactly the derived writes of `eventAdds`, in order. -/
lemma translate_foldl_eq_writes (tr : List (String × String)) :
    ∀ (l acc : List (String × JSON)),
    l.foldl (translateStep tr) acc =
      (eventAdds tr l).foldl (fun out w => dictSet out w.1 w.2) acc := by
  intro l
  induction l with
  | nil => intro acc; rfl
  | cons kv rest ih =>
    intro acc
    rw [List.foldl_cons]
    cases hkv : kv.2 with
    | str s =>
      cases hlook : trLookup tr s with
      | some t =>
        have hstep : translateStep tr acc kv =
            dictSet acc (kv.1 ++ "_translated") (.str t) := by
          simp [translateStep, hkv, hlook]
        have hadds : eventAdds tr (kv :: rest) =
            (kv.1 ++ "_translated", JSON.str t) :: eventAdds tr rest := by
          simp [eventAdds, List.filterMap_cons, hkv, hlook]
        rw [hstep, hadds, List.foldl_cons]
        exact ih _
      | none =>
        have hstep : translateStep tr acc kv = acc := by
          simp [translateStep, hkv, hlook]
        have hadds : eventAdds tr (kv :: rest) = eventAdds tr rest := by
          simp [eventAdds, List.filterMap_cons, hkv, hlook]
        rw [hstep, hadds]
        exact ih _
    | null =>
      have hstep : translateStep tr acc kv = acc := by
        simp [translateStep, hkv]
      have hadds : eventAdds tr (kv :: rest) = eventAdds tr rest := by
        simp [eventAdds, List.filterMap_cons, hkv]
      rw [hstep, hadds]
      exact ih _
    | bool b =>
      have hstep : translateStep tr acc kv = acc := by
        simp [translateStep, hkv]
      have hadds : eventAdds tr (kv :: rest) = eventAdds tr rest := by
        simp [eventAdds, List.filterMap_cons, hkv]
      rw [hstep, hadds]
      exact ih _
    | num n =>
      have hstep : translateStep tr acc kv = acc := by
        simp [translateStep, hkv]
      have hadds : eventAdds tr (kv :: rest) = eventAdds tr rest := by
        simp [eventAdds, List.filterMap_cons, hkv]
      rw [hstep, hadds]
      exact ih _
    | arr xs =>
      have hstep : translateStep tr acc kv = acc := by
        simp [translateStep, hkv]
      have hadds : eventAdds tr (kv :: rest) = eventAdds tr rest := by
        simp [eventAdds, List.filterMap_cons, hkv]
      rw [hstep, hadds]
      exact ih _
    | obj gs =>
      have hstep : translateStep tr acc kv = acc := by
        simp [translateStep, hkv]
      have hadds : eventAdds tr (kv :: rest) = eventAdds tr rest := by
        simp [eventAdds, List.filterMap_cons, hkv]
      rw [hstep, hadds]
      exact ih _

/-- A key absent from all entries is not in the dict. -/
lemma jHasKey_eq_false (l : List (String × JSON)) (k : String)
    (h : ∀ kv ∈ l, kv.1 ≠ k) : jHasKey l k = false := by
  rw [jHasKey, List.any_eq_false]
  intro x hx
  simp only [decide_eq_true_eq]
  exact h x hx

/-- Entries of a dict without key `k` all have other keys. -/
lemma ne_of_jHasKey_false (l : List (String × JSON)) (k : String)
    (h : jHasKey l k = false) : ∀ kv ∈ l, kv.1 ≠ k := by
  rw [jHasKey, List.any_eq_false] at h
  intro kv hkv
  have h2 := h kv hkv
  simpa using h2

/-- Key membership is preserved by key-preserving maps. -/
lemma jHasKey_map (ev : List (String × JSON))
    (g : (String × JSON) → JSON) (k : String) :
    jHasKey (ev.map fun kv => (kv.1, g kv)) k = jHasKey ev k := by
  induction ev with
  | nil => rfl
  | cons kv t ih =>
    show (decide (kv.1 = k) ||
        jHasKey (t.map fun kv => (kv.1, g kv)) k) =
      (decide (kv.1 = k) || jHasKey t k)
    rw [ih]

/-- A find over a dict not containing the key fails. -/
lemma find?_keys_none (l : List (String × JSON)) (k : String)
    (h : k ∉ l.map Prod.fst) :
    (l.find? fun w => w.1 = k) = none := by
  rw [List.find?_eq_none]
  intro x hx
  simp only [decide_eq_true_eq]
  intro heq
  exact h (heq ▸ List.mem_map_of_mem Prod.fst hx)

/-- Dict assignment targeting a key of the left part acts on the left
part. -/
lemma dictSet_append_left (l1 l2 : List (String × JSON)) (k : String)
    (v : JSON) (h : jHasKey l1 k = true) :
    dictSet (l1 ++ l2) k v = dictSet l1 k v ++ l2 := by
  induction l1 with
  | nil => exact absurd h (by simp [jHasKey])
  | cons kv t ih =>
    obtain ⟨k1, v1⟩ := kv
    show (if k1 = k then (k, v) :: (t ++ l2)
          else (k1, v1) :: dictSet (t ++ l2) k v) =
      (if k1 = k then (k, v) :: t
       else (k1, v1) :: dictSet t k v) ++ l2
    by_cases hk : k1 = k
    · rw [if_pos hk, if_pos hk, List.cons_append]
    · have h2 : jHasKey t k = true := by
        rw [jHasKey, List.any_cons] at h
        simp only [hk, decide_False, Bool.false_or] at h
        exact h
      rw [if_neg hk, if_neg hk, List.cons_append, ih h2]

/-- Dict assignment on a key-preserving map of a dict with distinct keys
replaces the written value pointwise. -/
lemma dictSet_map_replace (ev : List (String × JSON))
    (g : (String × JSON) → JSON) (k : String) (v : JSON)
    (hnd : (ev.map Prod.fst).Nodup) (hk : jHasKey ev k = true) :
    dictSet (ev.map fun kv => (kv.1, g kv)) k v =
      ev.map fun kv => (kv.1, if kv.1 = k then v else g kv) := by
  induction ev with
  | nil => exact absurd hk (by simp [jHasKey])
  | cons kv t ih =>
    rw [List.map_cons, List.nodup_cons] at hnd
    obtain ⟨hh, ht⟩ := hnd
    by_cases hkk : kv.1 = k
    · subst hkk
      show (if kv.1 = kv.1 then (kv.1, v) :: t.map (fun kv => (kv.1, g kv))
            else (kv.1, g kv) :: dictSet (t.map fun kv => (kv.1, g kv)) kv.1 v) = _
      rw [if_pos rfl, List.map_cons, if_pos rfl]
      congr 1
      apply List.map_congr_left
      intro x hx
      have hne : x.1 ≠ kv.1 := fun heq =>
        hh (heq ▸ List.mem_map_of_mem Prod.fst hx)
      rw [if_neg hne]
    · have h2 : jHasKey t k = true := by
        rw [jHasKey, List.any_cons] at hk
        simp only [hkk, decide_False, Bool.false_or] at hk
        exact hk
      show (if kv.1 = k then (k, v) :: t.map (fun kv => (kv.1, g kv))
            else (kv.1, g kv) :: dictSet (t.map fun kv => (kv.1, g kv)) k v) = _
      rw [if_neg hkk, List.map_cons, if_neg hkk]
      exact congrArg _ (ih ht h2)

/-- Applying no writes returns the record. -/
lemma applyWrites_nil (ev : List (String × JSON)) :
    applyWrites ev [] = ev := by
  simp [applyWrites]

/-- One more dict write with a key not written before extends the applied
writes by exactly that write: it replaces the same-keyed original entry in
place when one exists, and is appended otherwise. -/
lemma applyWrites_snoc (ev : List (String × JSON))
    (hnd : (ev.map Prod.fst).Nodup) (done : List (String × JSON))
    (w : String × JSON) (hw : w.1 ∉ done.map Prod.fst) :
    dictSet (applyWrites ev done) w.1 w.2 = applyWrites ev (done ++ [w]) := by
  by_cases hcol : jHasKey ev w.1 = true
  · rw [applyWrites, applyWrites]
    rw [dictSet_append_left _ _ _ _ (by rw [jHasKey_map]; exact hcol)]
    rw [dictSet_map_replace ev _ w.1 w.2 hnd hcol]
    congr 1
    · apply List.map_congr_left
      intro kv hkv
      by_cases hkeq : kv.1 = w.1
      · rw [if_pos hkeq]
        have hdone : (done.find? fun x => x.1 = kv.1) = none := by
          apply find?_keys_none
          rw [hkeq]; exact hw
        have hfw : ([w].find? fun x => x.1 = kv.1) = some w := by
          rw [hkeq]
          simp [List.find?_cons]
        rw [List.find?_append, hdone, hfw]
        rfl
      · rw [if_neg hkeq]
        have hfw : ([w].find? fun x => x.1 = kv.1) = none := by
          rw [List.find?_eq_none]
          intro x hx
          rcases List.mem_singleton.mp hx with rfl
          simp only [decide_eq_true_eq]
          intro heq
          exact hkeq heq.symm
        rw [List.find?_append, hfw, Option.or_none]
    · rw [List.filter_append]
      have hwf : ([w].filter fun x => ! jHasKey ev x.1) = [] := by
        simp [List.filter, hcol]
      rw [hwf, List.append_nil]
  · have hcolf : jHasKey ev w.1 = false := Bool.eq_false_iff.mpr hcol
    have hfresh : jHasKey (applyWrites ev done) w.1 = false := by
      rw [applyWrites, jHasKey_append, jHasKey_map, hcolf]
      have hfil : jHasKey (done.filter fun x => ! jHasKey ev x.1)
          w.1 = false := by
        apply jHasKey_eq_false
        intro kv hkv heq
        exact hw (heq ▸
          List.mem_map_of_mem Prod.fst (List.mem_filter.mp hkv).1)
      rw [hfil]
      rfl
    rw [dictSet_fresh _ _ _ hfresh]
    rw [applyWrites, applyWrites, List.append_assoc]
    congr 1
    · apply List.map_congr_left
      intro kv hkv
      have hne : kv.1 ≠ w.1 := ne_of_jHasKey_false ev w.1 hcolf kv hkv
      have hfw : ([w].find? fun x => x.1 = kv.1) = none := by
        rw [List.find?_eq_none]
        intro x hx
        rcases List.mem_singleton.mp hx with rfl
        simp only [decide_eq_true_eq]
        intro heq
        exact hne heq.symm
      rw [List.find?_append, hfw, Option.or_none]
    · rw [List.filter_append]
      have hwf : ([w].filter fun x => ! jHasKey ev x.1) = [w] := by
        simp [List.filter, hcolf]
      rw [hwf]

/-- Folding dict writes with pairwise-distinct keys over a distinct-key
record produces exactly the replace-in-place-or-append result. -/
lemma foldl_dictSet_applyWrites (ev : List (String × JSON))
    (hnd : (ev.map Prod.fst).Nodup) :
    ∀ (ws done : List (String × JSON)),
    ((done ++ ws).map Prod.fst).Nodup →
    ws.foldl (fun out w => dictSet out w.1 w.2) (applyWrites ev done) =
      applyWrites ev (done ++ ws) := by
  intro ws
  induction ws with
  | nil =>
    intro done _
    rw [List.foldl_nil, List.append_nil]
  | cons w ws' ih =>
    intro done hndw
    have hw : w.1 ∉ done.map Prod.fst := by
      rw [List.map_append, List.nodup_append] at hndw
      intro hmem
      exact hndw.2.2 hmem (by simp)
    rw [List.foldl_cons, applyWrites_snoc ev hnd done w hw]
    have hnd2 : (((done ++ [w]) ++ ws').map Prod.fst).Nodup := by
      rw [List.append_assoc, List.singleton_append]
      exact hndw
    rw [ih (done ++ [w]) hnd2, List.append_assoc, List.singleton_append]

/-- Every derived entry carries the `_translated` name of its source
key. -/
lemma eventAdds_mem_key (tr : List (String × String))
    (l : List (String × JSON)) (p : String × JSON)
    (hp : p ∈ eventAdds tr l) :
    ∃ kv ∈ l, p.1 = kv.1 ++ "_translated" := by
  rw [eventAdds, List.mem_filterMap] at hp
  obtain ⟨kv, hkv, hg⟩ := hp
  refine ⟨kv, hkv, ?_⟩
  cases hv : kv.2 with
  | str s =>
    rw [hv] at hg
    dsimp only at hg
    cases hlook : trLookup tr s with
    | some t =>
      rw [hlook, Option.map_some'] at hg
      rw [← Option.some.inj hg]
    | none => rw [hlook] at hg; exact Option.noConfusion hg
  | null => rw [hv] at hg; exact Option.noConfusion hg
  | bool b => rw [hv] at hg; exact Option.noConfusion hg
  | num n => rw [hv] at hg; exact Option.noConfusion hg
  | arr xs => rw [hv] at hg; exact Option.noConfusion hg
  | obj gs => rw [hv] at hg; exact Option.noConfusion hg

/-- Derived writes of a record with distinct keys have distinct keys. -/
lemma eventAdds_keys_nodup (tr : List (String × String)) :
    ∀ ev : List (String × JSON), (ev.map Prod.fst).Nodup →
    ((eventAdds tr ev).map Prod.fst).Nodup := by
  intro ev
  induction ev with
  | nil => intro _; simp [eventAdds]
  | cons kv rest ih =>
    intro hnd
    rw [List.map_cons, List.nodup_cons] at hnd
    obtain ⟨hhd, htl⟩ := hnd
    cases hv : kv.2 with
    | str s =>
      cases hlook : trLookup tr s with
      | some t =>
        have heq : eventAdds tr (kv :: rest) =
            (kv.1 ++ "_translated", JSON.str t) :: eventAdds tr rest := by
          simp [eventAdds, List.filterMap_cons, hv, hlook]
        rw [heq, List.map_cons, List.nodup_cons]
        refine ⟨?_, ih htl⟩
        intro hmem
        rw [List.mem_map] at hmem
        obtain ⟨p, hp, hfst⟩ := hmem
        obtain ⟨kv2, hkv2, hkey⟩ := eventAdds_mem_key tr rest p hp
        have hk12 : kv2.1 = kv.1 := translated_key_inj (by rw [← hkey, hfst])
        exact hhd (hk12 ▸ List.mem_map_of_mem Prod.fst hkv2)
      | none =>
        have heq : eventAdds tr (kv :: rest) = eventAdds tr rest := by
          simp [eventAdds, List.filterMap_cons, hv, hlook]
        rw [heq]
        exact ih htl
    | null =>
      have heq : eventAdds tr (kv :: rest) = eventAdds tr rest := by
        simp [eventAdds, List.filterMap_cons, hv]
      rw [heq]
      exact ih htl
    | bool b =>
      have heq : eventAdds tr (kv :: rest) = eventAdds tr rest := by
        simp [eventAdds, List.filterMap_cons, hv]
      rw [heq]
      exact ih htl
    | num n =>
      have heq : eventAdds tr (kv :: rest) = eventAdds tr rest := by
        simp [eventAdds, List.filterMap_cons, hv]
      rw [heq]
      exact ih htl
    | arr xs =>
      have heq : eventAdds tr (kv :: rest) = eventAdds tr rest := by
        simp [eventAdds, List.filterMap_cons, hv]
      rw [heq]
      exact ih htl
    | obj gs =>
      have heq : eventAdds tr (kv :: rest) = eventAdds tr rest := by
        simp [eventAdds, List.filterMap_cons, hv]
      rw [heq]
      exact ih htl

/-- Amended claim C5: an absent or empty table passes every record
through unchanged, and a record none of whose string fields occur in the
table is unchanged.  For every record with distinct keys (as every
dict-derived record has), the output record is exactly `applyWrites`: each
original entry whose key coincides with a derived `<key>_translated` name
is replaced in place by the table value — overwriting the original pair —
all other original entries are unchanged, and the remaining derived
entries are appended in record order; the whole translation pass maps this
over the batch.  For records free of such name collisions this specializes
to the original record followed by the added entries.  The overwrite
behavior is forced by the counterexample below: the loop assigns into the
copied dict. -/
theorem translation_pass_amended :
    (∀ events, apply_translations none events = events) ∧
    (∀ events, apply_translations (some []) events = events) ∧
    (∀ (tr : List (String × String)) (ev : List (String × JSON)),
      (∀ kv ∈ ev, ∀ s, kv.2 = .str s → trLookup tr s = none) →
      translateEvent tr ev = ev) ∧
    (∀ (tr : List (String × String)) (ev : List (String × JSON)),
      (ev.map Prod.fst).Nodup →
      translateEvent tr ev = applyWrites ev (eventAdds tr ev)) ∧
    (∀ (tr : List (String × String))
        (events : List (List (String × JSON))),
      tr ≠ [] →
      (∀ ev ∈ events, (ev.map Prod.fst).Nodup) →
      apply_translations (some tr) events =
        events.map fun ev => applyWrites ev (eventAdds tr ev)) ∧
    (∀ (tr : List (String × String)) (ev : List (String × JSON)),
      (ev.map Prod.fst).Nodup →
      (∀ kv ∈ ev, ∀ s, kv.2 = .str s → (trLookup tr s).isSome = true →
        jHasKey ev (kv.1 ++ "_translated") = false) →
      translateEvent tr ev = ev ++ eventAdds tr ev) ∧
    (apply_translations (some [("IGN", "Ignition")])
        [[("type", .str "IGN")]] =
      [[("type", .str "IGN"), ("type_translated", .str "Ignition")]]) := by
  have hgen : ∀ (tr : List (String × String)) (ev : List (String × JSON)),
      (ev.map Prod.fst).Nodup →
      translateEvent tr ev = applyWrites ev (eventAdds tr ev) := by
    intro tr ev hnd
    rw [translateEvent, translate_foldl_eq_writes]
    have h0 := foldl_dictSet_applyWrites ev hnd (eventAdds tr ev) []
      (by simpa using eventAdds_keys_nodup tr ev hnd)
    rw [applyWrites_nil] at h0
    rw [h0]
    rfl
  refine ⟨fun events => rfl, fun events => rfl, ?_, hgen, ?_, ?_, rfl⟩
  · intro tr ev h
    exact translate_foldl_nomatch tr ev ev h
  · intro tr events htr hgood
    have hne : tr.isEmpty = false := by
      cases tr with
      | nil => exact absurd rfl htr
      | cons a t => rfl
    show (if tr.isEmpty then events else events.map (translateEvent tr)) = _
    rw [hne]
    simp only [Bool.false_eq_true, if_false]
    apply List.map_congr_left
    intro ev hev
    exact hgen tr ev (hgood ev hev)
  · intro tr ev hnd hfresh
    exact translate_foldl tr ev ev hnd hfresh

/-- Counterexample to C5 as stated: a record that already carries a field
named `type_translated` has that original pair overwritten by the
translation of `type`, so the output does not contain all original
key/value pairs. -/
theorem translation_pass_counterexample :
    apply_translations (some [("IGN", "Ignition")])
      [[("type", JSON.str "IGN"), ("type_translated", JSON.str "x")]] =
      [[("type", JSON.str "IGN"),
        ("type_translated", JSON.str "Ignition")]] ∧
    ("type_translated", JSON.str "x") ∈
      [("type", JSON.str "IGN"), ("type_translated", JSON.str "x")] ∧
    ("type_translated", JSON.str "x") ∉
      [("type", JSON.str "IGN"),
       ("type_translated", JSON.str "Ignition")] := by
  refine ⟨rfl, List.mem_cons_of_mem _ (List.mem_singleton.mpr rfl), ?_⟩
  intro h
  rcases List.mem_cons.mp h with h | h
  · have h2 := congrArg Prod.fst h
    exact absurd h2 (by decide)
  · rcases List.mem_singleton.mp h with h
    have h2 := congrArg Prod.snd h
    have h3 := JSON.str.inj h2
    exact absurd h3 (by decide)

/-- Witness for the amended C5: the general clause applied to the
collision record, whose original `type_translated` entry is overwritten in
place. -/
theorem translation_pass_amended_witness :
    translateEvent [("IGN", "Ignition")]
      [("type", JSON.str "IGN"), ("type_translated", JSON.str "x")] =
      applyWrites
        [("type", JSON.str "IGN"), ("type_translated", JSON.str "x")]
        (eventAdds [("IGN", "Ignition")]
          [("type", JSON.str "IGN"), ("type_translated", JSON.str "x")]) :=
  translation_pass_amended.2.2.2.1 [("IGN", "Ignition")]
    [("type", JSON.str "IGN"), ("type_translated", JSON.str "x")]
    (by simp)

/-!  Login classification (claim C6).  The claim says login fails with
AuthError exactly when the status is non-zero or no token is present, but
a non-zero status other than 401/403 whose message carries no token hint
is rejected by the shared classification as a plain `StokerCloudError`
(protocol error) before the login-specific check runs; the amended
statement below accounts for that path. -/

/-- Auth statuses are never zero-ish. -/
lemma authStatus_not_zeroish (v : Option JSON)
    (h : isAuthStatus v = true) : isStatusZeroish v = false := by
  cases v with
  | none => exact absurd h (by simp [isAuthStatus])
  | some v =>
    cases v with
    | num n =>
      simp [isAuthStatus, pyEqNum, pyEqStr] at h
      simp [isStatusZeroish, pyEqNum, pyEqStr]
      omega
    | bool b => cases b <;> simp [isAuthStatus, pyEqNum, pyEqStr] at h
    | str s =>
      simp [isAuthStatus, pyEqNum, pyEqStr] at h
      simp [isStatusZeroish, pyEqNum, pyEqStr]
      rcases h with h | h <;> subst h <;> simp
    | null => simp [isAuthStatus, pyEqNum, pyEqStr] at h
    | arr xs => simp [isAuthStatus, pyEqNum, pyEqStr] at h
    | obj gs => simp [isAuthStatus, pyEqNum, pyEqStr] at h

/-- A status equal to the Python integer 0 is zero-ish. -/
lemma pyOptEqNum0_zeroish (v : Option JSON)
    (h : pyOptEqNum v 0 = true) : isStatusZeroish v = true := by
  cases v with
  | none => exact absurd h (by simp [pyOptEqNum])
  | some v =>
    rw [pyOptEqNum] at h
    cases v <;> simp_all [isStatusZeroish, pyEqNum]

/-- Login on a passing status equal to 0 with a token present succeeds. -/
lemma login_value_ok (fs : List (String × JSON))
    (h0 : pyOptEqNum (jGet fs "status") 0 = true)
    (htok : jHasKey fs "token" = true) :
    login (.obj fs) = .ok ⟨pyStr ((jGet fs "token").getD .null),
      jGet fs "credentials", jGet fs "master"⟩ := by
  have hz := pyOptEqNum0_zeroish _ h0
  simp [login, requestJsonClassify, hz, h0, htok]

/-- Login on a passing status that is not the integer 0, or with no token,
raises the login auth error. -/
lemma login_value_auth_check (fs : List (String × JSON))
    (hz : isStatusZeroish (jGet fs "status") = true)
    (h : pyOptEqNum (jGet fs "status") 0 = false ∨
      jHasKey fs "token" = false) :
    login (.obj fs) =
      .auth (pyStr ((jGet fs "message").getD (.str "Login failed"))) := by
  rcases h with h | h <;> simp [login, requestJsonClassify, hz, h]

/-- Login under a 401/403 status propagates the classification auth
error. -/
lemma login_value_auth_status (fs : List (String × JSON))
    (ha : isAuthStatus (jGet fs "status") = true) :
    login (.obj fs) = .auth (requestMessage fs) := by
  have hz := authStatus_not_zeroish _ ha
  simp [login, requestJsonClassify, hz, ha]

/-- Login under another non-zero status with a token-hint message
propagates the classification auth error. -/
lemma login_value_auth_hint (fs : List (String × JSON))
    (hz : isStatusZeroish (jGet fs "status") = false)
    (ha : isAuthStatus (jGet fs "status") = false)
    (hh : tokenHint (pyLower (requestMessage fs)) = true) :
    login (.obj fs) = .auth (requestMessage fs) := by
  simp [login, requestJsonClassify, hz, ha, hh]

/-- Login under another non-zero status without a token-hint message fails
with the protocol error, not the auth error. -/
lemma login_value_protocol (fs : List (String × JSON))
    (hz : isStatusZeroish (jGet fs "status") = false)
    (ha : isAuthStatus (jGet fs "status") = false)
    (hh : tokenHint (pyLower (requestMessage fs)) = false) :
    login (.obj fs) = .protocol (requestMessage fs) := by
  simp [login, requestJsonClassify, hz, ha, hh]

/-- Amended claim C6: for an object login response, login yields an auth
error exactly when the shared classification itself does (401/403 status,
or other non-zero status with a token-hint message), or the payload passes
classification but its status is not Python-equal to the integer 0 or no
token field is present; when the status equals 0 and a token is present,
login succeeds and returns that token with the optional credentials and
master fields; and a non-zero status outside 401/403 whose message has no
token hint fails with the protocol error instead of the auth error. -/
theorem login_failure_classification (fs : List (String × JSON)) :
    ((∃ m, login (.obj fs) = .auth m) ↔
      (isAuthStatus (jGet fs "status") = true ∨
       (isStatusZeroish (jGet fs "status") = false ∧
         tokenHint (pyLower (requestMessage fs)) = true) ∨
       (isStatusZeroish (jGet fs "status") = true ∧
         (pyOptEqNum (jGet fs "status") 0 = false ∨
          jHasKey fs "token" = false)))) ∧
    (pyOptEqNum (jGet fs "status") 0 = true → jHasKey fs "token" = true →
      login (.obj fs) = .ok ⟨pyStr ((jGet fs "token").getD .null),
        jGet fs "credentials", jGet fs "master"⟩) ∧
    (isStatusZeroish (jGet fs "status") = false →
      isAuthStatus (jGet fs "status") = false →
      tokenHint (pyLower (requestMessage fs)) = false →
      login (.obj fs) = .protocol (requestMessage fs)) := by
  refine ⟨?_, login_value_ok fs, login_value_protocol fs⟩
  constructor
  · rintro ⟨m, hm⟩
    by_cases hz : isStatusZeroish (jGet fs "status") = true
    · right; right
      refine ⟨hz, ?_⟩
      by_cases h0 : pyOptEqNum (jGet fs "status") 0 = true
      · by_cases htok : jHasKey fs "token" = true
        · rw [login_value_ok fs h0 htok] at hm
          exact absurd hm (by intro hcontra; exact LoginOutcome.noConfusion hcontra)
        · exact Or.inr (Bool.not_eq_true _ ▸ Bool.eq_false_iff.mpr htok)
      · exact Or.inl (Bool.eq_false_iff.mpr h0)
    · have hzf : isStatusZeroish (jGet fs "status") = false :=
        Bool.eq_false_iff.mpr hz
      by_cases ha : isAuthStatus (jGet fs "status") = true
      · exact Or.inl ha
      · have haf : isAuthStatus (jGet fs "status") = false :=
          Bool.eq_false_iff.mpr ha
        by_cases hh : tokenHint (pyLower (requestMessage fs)) = true
        · exact Or.inr (Or.inl ⟨hzf, hh⟩)
        · have hhf := Bool.eq_false_iff.mpr hh
          rw [login_value_protocol fs hzf haf hhf] at hm
          exact absurd hm (by intro hcontra; exact LoginOutcome.noConfusion hcontra)
  · rintro (ha | ⟨hz, hh⟩ | ⟨hz, hor⟩)
    · exact ⟨requestMessage fs, login_value_auth_status fs ha⟩
    · by_cases ha : isAuthStatus (jGet fs "status") = true
      · exact ⟨requestMessage fs, login_value_auth_status fs ha⟩
      · exact ⟨requestMessage fs,
          login_value_auth_hint fs hz (Bool.eq_false_iff.mpr ha) hh⟩
    · exact ⟨pyStr ((jGet fs "message").getD (.str "Login failed")),
        login_value_auth_check fs hz hor⟩

/-- Counterexample to C6 as stated: the response with non-zero status 500
and message "server error" (and no token) must, per the claim, fail with
the auth error, but the code raises the plain protocol error carrying the
message. -/
theorem login_autherror_counterexample :
    login (.obj [("status", JSON.num 500),
        ("message", JSON.str "server error")]) =
      .protocol "server error" ∧
    ∀ m, login (.obj [("status", JSON.num 500),
        ("message", JSON.str "server error")]) ≠ .auth m := by
  refine ⟨rfl, ?_⟩
  intro m h
  have h2 : LoginOutcome.protocol "server error" = .auth m := h
  exact LoginOutcome.noConfusion h2

/-- Witness for the amended C6: a concrete login success. -/
theorem login_failure_classification_witness :
    login (.obj [("status", JSON.num 0), ("token", JSON.str "abc")]) =
      .ok ⟨"abc", none, none⟩ :=
  (login_failure_classification
    [("status", JSON.num 0), ("token", JSON.str "abc")]).2.1 rfl rfl

/-!  Event batch stamping (claim C7).  The code stamps
`translations_loaded = translations is not None`, which is true for a
successfully fetched but empty table; the claim reads the flag as
recording non-emptiness, which fails on that input. -/

/-- Amended claim C7: for every successful event refresh, the published
batch keeps the raw payload and the (translated) extracted events, and is
stamped with the request count 100, offset 0, the configured translation
language, and a `translations_loaded` flag that records whether a
translation table was fetched at startup (`translations is not None`) —
even when that table is empty. -/
theorem event_batch_stamping (tr : Option (List (String × String)))
    (p : JSON) :
    jGet (updateEventData tr [("raw", p), ("events", .arr (extract_events p))])
        "raw" = some p ∧
    jGet (updateEventData tr [("raw", p), ("events", .arr (extract_events p))])
        "events" =
      some (.arr ((apply_translations tr
        ((extract_events p).filterMap fun e =>
          match e with
          | .obj fs => some fs
          | _ => none)).map .obj)) ∧
    jGet (updateEventData tr [("raw", p), ("events", .arr (extract_events p))])
        "count" = some (.num DEFAULT_EVENT_COUNT) ∧
    jGet (updateEventData tr [("raw", p), ("events", .arr (extract_events p))])
        "offset" = some (.num DEFAULT_EVENT_OFFSET) ∧
    jGet (updateEventData tr [("raw", p), ("events", .arr (extract_events p))])
        "translation_language" = some (.str DEFAULT_TRANSLATION_LANGUAGE) ∧
    jGet (updateEventData tr [("raw", p), ("events", .arr (extract_events p))])
        "translations_loaded" = some (.bool tr.isSome) :=
  ⟨rfl, rfl, rfl, rfl, rfl, rfl⟩

/-- Counterexample to C7 as stated: with a fetched but empty translation
table the flag is stamped `true`, while the table was not non-empty, so
the flag does not record non-emptiness. -/
theorem translations_loaded_counterexample :
    jGet (updateEventData (some [])
        [("raw", JSON.null), ("events", JSON.arr [])])
      "translations_loaded" = some (JSON.bool true) ∧
    (([] : List (String × String)).isEmpty = true) ∧
    some (JSON.bool true) ≠ some (JSON.bool false) := by
  refine ⟨rfl, rfl, ?_⟩
  intro h
  have h2 := Option.some.inj h
  have h3 := JSON.bool.inj h2
  exact Bool.noConfusion h3

/-!  Concurrency of the token guard (claim C9). -/

/-- Count of a task list split around one task, when the task satisfies
the predicate. -/
lemma countP_mid_true (p : TaskSt → Bool) (pre post : List TaskSt)
    (x : TaskSt) (h : p x = true) :
    (pre ++ x :: post).countP p = pre.countP p + post.countP p + 1 := by
  rw [List.countP_append, List.countP_cons, if_pos h]
  omega

/-- Count of a task list split around one task, when the task does not
satisfy the predicate. -/
lemma countP_mid_false (p : TaskSt → Bool) (pre post : List TaskSt)
    (x : TaskSt) (h : p x = false) :
    (pre ++ x :: post).countP p = pre.countP p + post.countP p := by
  rw [List.countP_append, List.countP_cons, h,
    if_neg Bool.false_ne_true]
  omega

/-- Tasks with a login in flight are inside the critical section. -/
lemma isLoggingIn_le_inCrit (l : List TaskSt) :
    l.countP isLoggingIn ≤ l.countP inCrit := by
  refine List.countP_mono_left ?_
  intro a _ h
  cases hp : a.pc <;> simp_all [isLoggingIn, inCrit]

/-- Every step preserves the fresh-start invariant. -/
lemma freshInv_step {newTok : Nat → String} {s s2 : GuardSt}
    (hstep : GuardStep newTok s s2) (hinv : FreshInv newTok s) :
    FreshInv newTok s2 := by
  obtain ⟨hmx, hlf, han, has, htv, hov⟩ := hinv
  cases hstep with
  | acquire token logins obs pre post =>
    dsimp only at hmx hlf han has htv hov
    have h0 := hlf rfl
    rw [countP_mid_false inCrit pre post ⟨.waiting, obs⟩ rfl] at h0
    refine ⟨?_, ?_, ?_, has, htv, ?_⟩
    · show (pre ++ (⟨.entered, obs⟩ : TaskSt) :: post).countP inCrit ≤ 1
      rw [countP_mid_true inCrit pre post ⟨.entered, obs⟩ rfl]
      omega
    · intro h; exact Bool.noConfusion h
    · intro htok
      show logins =
        (pre ++ (⟨.entered, obs⟩ : TaskSt) :: post).countP isLoggingIn
      rw [countP_mid_false isLoggingIn pre post ⟨.entered, obs⟩ rfl]
      have h2 := han htok
      rw [countP_mid_false isLoggingIn pre post ⟨.waiting, obs⟩ rfl] at h2
      exact h2
    · intro t ht hpc
      rcases List.mem_append.mp ht with h | h
      · exact hov t (List.mem_append.mpr (Or.inl h)) hpc
      · rcases List.mem_cons.mp h with rfl | h
        · rcases hpc with hpc | hpc <;> exact TPC.noConfusion hpc
        · exact hov t
            (List.mem_append.mpr (Or.inr (List.mem_cons_of_mem _ h))) hpc
  | loginBegin lh logins obs pre post =>
    dsimp only at hmx hlf han has htv hov
    rw [countP_mid_true inCrit pre post ⟨.entered, obs⟩ rfl] at hmx
    refine ⟨?_, ?_, ?_, ?_, ?_, ?_⟩
    · show (pre ++ (⟨.loggingIn, obs⟩ : TaskSt) :: post).countP inCrit ≤ 1
      rw [countP_mid_true inCrit pre post ⟨.loggingIn, obs⟩ rfl]
      omega
    · intro h
      have h0 := hlf h
      rw [countP_mid_true inCrit pre post ⟨.entered, obs⟩ rfl] at h0
      show (pre ++ (⟨.loggingIn, obs⟩ : TaskSt) :: post).countP inCrit = 0
      rw [countP_mid_true inCrit pre post ⟨.loggingIn, obs⟩ rfl]
      omega
    · intro _
      show logins + 1 =
        (pre ++ (⟨.loggingIn, obs⟩ : TaskSt) :: post).countP isLoggingIn
      rw [countP_mid_true isLoggingIn pre post ⟨.loggingIn, obs⟩ rfl]
      have h2 := han rfl
      rw [countP_mid_false isLoggingIn pre post ⟨.entered, obs⟩ rfl] at h2
      omega
    · intro h; simp at h
    · intro v hv; exact Option.noConfusion hv
    · intro t ht hpc
      rcases List.mem_append.mp ht with h | h
      · obtain ⟨v, hv, _⟩ := hov t (List.mem_append.mpr (Or.inl h)) hpc
        exact Option.noConfusion hv
      · rcases List.mem_cons.mp h with rfl | h
        · rcases hpc with hpc | hpc <;> exact TPC.noConfusion hpc
        · obtain ⟨v, hv, _⟩ := hov t
            (List.mem_append.mpr (Or.inr (List.mem_cons_of_mem _ h))) hpc
          exact Option.noConfusion hv
  | loginEnd token lh logins obs pre post =>
    dsimp only at hmx hlf han has htv hov
    rw [countP_mid_true inCrit pre post ⟨.loggingIn, obs⟩ rfl] at hmx
    have hl1 : logins = 1 := by
      cases htok : token with
      | some w => exact has (by rw [htok]; rfl)
      | none =>
        have hold := han htok
        rw [countP_mid_true isLoggingIn pre post ⟨.loggingIn, obs⟩ rfl]
          at hold
        have hp1 := isLoggingIn_le_inCrit pre
        have hp2 := isLoggingIn_le_inCrit post
        omega
    refine ⟨?_, ?_, ?_, ?_, ?_, ?_⟩
    · show (pre ++ (⟨.entered, obs⟩ : TaskSt) :: post).countP inCrit ≤ 1
      rw [countP_mid_true inCrit pre post ⟨.entered, obs⟩ rfl]
      omega
    · intro h
      have h0 := hlf h
      rw [countP_mid_true inCrit pre post ⟨.loggingIn, obs⟩ rfl] at h0
      show (pre ++ (⟨.entered, obs⟩ : TaskSt) :: post).countP inCrit = 0
      rw [countP_mid_true inCrit pre post ⟨.entered, obs⟩ rfl]
      omega
    · intro h; exact Option.noConfusion h
    · intro _; exact hl1
    · intro v hv
      rw [← Option.some.inj hv, hl1]
    · intro t ht hpc
      rcases List.mem_append.mp ht with h | h
      · obtain ⟨v, hv, hvo⟩ :=
          hov t (List.mem_append.mpr (Or.inl h)) hpc
        refine ⟨v, ?_, hvo⟩
        rw [hl1, htv v hv]
      · rcases List.mem_cons.mp h with rfl | h
        · rcases hpc with hpc | hpc <;> exact TPC.noConfusion hpc
        · obtain ⟨v, hv, hvo⟩ := hov t
            (List.mem_append.mpr (Or.inr (List.mem_cons_of_mem _ h))) hpc
          refine ⟨v, ?_, hvo⟩
          rw [hl1, htv v hv]
  | exitLock t lh logins obs pre post =>
    dsimp only at hmx hlf han has htv hov
    rw [countP_mid_true inCrit pre post ⟨.entered, obs⟩ rfl] at hmx
    refine ⟨?_, ?_, ?_, has, htv, ?_⟩
    · show (pre ++ (⟨.fetching, some t⟩ : TaskSt) :: post).countP inCrit ≤ 1
      rw [countP_mid_false inCrit pre post ⟨.fetching, some t⟩ rfl]
      omega
    · intro _
      show (pre ++ (⟨.fetching, some t⟩ : TaskSt) :: post).countP inCrit = 0
      rw [countP_mid_false inCrit pre post ⟨.fetching, some t⟩ rfl]
      omega
    · intro h; exact Option.noConfusion h
    · intro t2 ht2 hpc2
      rcases List.mem_append.mp ht2 with h | h
      · exact hov t2 (List.mem_append.mpr (Or.inl h)) hpc2
      · rcases List.mem_cons.mp h with rfl | h
        · exact ⟨t, rfl, rfl⟩
        · exact hov t2
            (List.mem_append.mpr (Or.inr (List.mem_cons_of_mem _ h))) hpc2
  | fetchDone token lh logins obs pre post =>
    dsimp only at hmx hlf han has htv hov
    rw [countP_mid_false inCrit pre post ⟨.fetching, obs⟩ rfl] at hmx
    refine ⟨?_, ?_, ?_, has, htv, ?_⟩
    · show (pre ++ (⟨.finished, obs⟩ : TaskSt) :: post).countP inCrit ≤ 1
      rw [countP_mid_false inCrit pre post ⟨.finished, obs⟩ rfl]
      omega
    · intro h
      have h0 := hlf h
      rw [countP_mid_false inCrit pre post ⟨.fetching, obs⟩ rfl] at h0
      show (pre ++ (⟨.finished, obs⟩ : TaskSt) :: post).countP inCrit = 0
      rw [countP_mid_false inCrit pre post ⟨.finished, obs⟩ rfl]
      omega
    · intro htok
      have h2 := han htok
      rw [countP_mid_false isLoggingIn pre post ⟨.fetching, obs⟩ rfl] at h2
      show logins =
        (pre ++ (⟨.finished, obs⟩ : TaskSt) :: post).countP isLoggingIn
      rw [countP_mid_false isLoggingIn pre post ⟨.finished, obs⟩ rfl]
      exact h2
    · intro t2 ht2 hpc2
      rcases List.mem_append.mp ht2 with h | h
      · exact hov t2 (List.mem_append.mpr (Or.inl h)) hpc2
      · rcases List.mem_cons.mp h with rfl | h
        · exact hov ⟨.fetching, obs⟩
            (List.mem_append.mpr (Or.inr (List.mem_cons_self _ _)))
            (Or.inl rfl)
        · exact hov t2
            (List.mem_append.mpr (Or.inr (List.mem_cons_of_mem _ h))) hpc2

/-- The fresh-start invariant holds in every reachable state. -/
lemma freshInv_reach (newTok : Nat → String) (n : Nat) {s : GuardSt}
    (h : GuardReach newTok none n s) : FreshInv newTok s := by
  induction h with
  | refl =>
    have hz : ∀ p : TaskSt → Bool, p ⟨.waiting, none⟩ = false →
        (List.replicate n (⟨.waiting, none⟩ : TaskSt)).countP p = 0 := by
      intro p hp
      rw [List.countP_eq_zero]
      intro t ht
      rw [List.eq_of_mem_replicate ht, hp]
      exact Bool.noConfusion
    refine ⟨?_, ?_, ?_, ?_, ?_, ?_⟩
    · show (List.replicate n (⟨.waiting, none⟩ : TaskSt)).countP inCrit ≤ 1
      rw [hz inCrit rfl]; omega
    · intro _
      show (List.replicate n (⟨.waiting, none⟩ : TaskSt)).countP inCrit = 0
      exact hz inCrit rfl
    · intro _
      show 0 =
        (List.replicate n (⟨.waiting, none⟩ : TaskSt)).countP isLoggingIn
      rw [hz isLoggingIn rfl]
    · intro h; simp [guardInit] at h
    · intro v hv; exact Option.noConfusion hv
    · intro t ht hpc
      rw [List.eq_of_mem_replicate ht] at hpc
      rcases hpc with hpc | hpc <;> exact TPC.noConfusion hpc
  | tail _ hstep ih => exact freshInv_step hstep ih

/-- Every step preserves the cached-token invariant. -/
lemma cachedInv_step {newTok : Nat → String} {t0 : String}
    {s s2 : GuardSt} (hstep : GuardStep newTok s s2)
    (hinv : CachedInv t0 s) : CachedInv t0 s2 := by
  obtain ⟨hmx, hlf, hts, hnl, hni, hov⟩ := hinv
  cases hstep with
  | acquire token logins obs pre post =>
    dsimp only at hmx hlf hts hnl hni hov
    have h0 := hlf rfl
    rw [countP_mid_false inCrit pre post ⟨.waiting, obs⟩ rfl] at h0
    rw [countP_mid_false isLoggingIn pre post ⟨.waiting, obs⟩ rfl] at hni
    refine ⟨?_, ?_, hts, hnl, ?_, ?_⟩
    · show (pre ++ (⟨.entered, obs⟩ : TaskSt) :: post).countP inCrit ≤ 1
      rw [countP_mid_true inCrit pre post ⟨.entered, obs⟩ rfl]
      omega
    · intro h; exact Bool.noConfusion h
    · show (pre ++ (⟨.entered, obs⟩ : TaskSt) :: post).countP isLoggingIn = 0
      rw [countP_mid_false isLoggingIn pre post ⟨.entered, obs⟩ rfl]
      omega
    · intro t ht hpc
      rcases List.mem_append.mp ht with h | h
      · exact hov t (List.mem_append.mpr (Or.inl h)) hpc
      · rcases List.mem_cons.mp h with rfl | h
        · rcases hpc with hpc | hpc <;> exact TPC.noConfusion hpc
        · exact hov t
            (List.mem_append.mpr (Or.inr (List.mem_cons_of_mem _ h))) hpc
  | loginBegin lh logins obs pre post =>
    dsimp only at hts
    exact Option.noConfusion hts
  | loginEnd token lh logins obs pre post =>
    exfalso
    dsimp only at hni
    rw [countP_mid_true isLoggingIn pre post ⟨.loggingIn, obs⟩ rfl] at hni
    omega
  | exitLock t lh logins obs pre post =>
    dsimp only at hmx hlf hts hnl hni hov
    rw [countP_mid_true inCrit pre post ⟨.entered, obs⟩ rfl] at hmx
    rw [countP_mid_false isLoggingIn pre post ⟨.entered, obs⟩ rfl] at hni
    have hteq : t = t0 := Option.some.inj hts
    refine ⟨?_, ?_, hts, hnl, ?_, ?_⟩
    · show (pre ++ (⟨.fetching, some t⟩ : TaskSt) :: post).countP inCrit ≤ 1
      rw [countP_mid_false inCrit pre post ⟨.fetching, some t⟩ rfl]
      omega
    · intro _
      show (pre ++ (⟨.fetching, some t⟩ : TaskSt) :: post).countP inCrit = 0
      rw [countP_mid_false inCrit pre post ⟨.fetching, some t⟩ rfl]
      omega
    · show (pre ++ (⟨.fetching, some t⟩ : TaskSt) :: post).countP
          isLoggingIn = 0
      rw [countP_mid_false isLoggingIn pre post ⟨.fetching, some t⟩ rfl]
      omega
    · intro t2 ht2 hpc2
      rcases List.mem_append.mp ht2 with h | h
      · exact hov t2 (List.mem_append.mpr (Or.inl h)) hpc2
      · rcases List.mem_cons.mp h with rfl | h
        · show (⟨.fetching, some t⟩ : TaskSt).observed = some t0
          rw [hteq]
        · exact hov t2
            (List.mem_append.mpr (Or.inr (List.mem_cons_of_mem _ h))) hpc2
  | fetchDone token lh logins obs pre post =>
    dsimp only at hmx hlf hts hnl hni hov
    rw [countP_mid_false inCrit pre post ⟨.fetching, obs⟩ rfl] at hmx
    rw [countP_mid_false isLoggingIn pre post ⟨.fetching, obs⟩ rfl] at hni
    refine ⟨?_, ?_, hts, hnl, ?_, ?_⟩
    · show (pre ++ (⟨.finished, obs⟩ : TaskSt) :: post).countP inCrit ≤ 1
      rw [countP_mid_false inCrit pre post ⟨.finished, obs⟩ rfl]
      omega
    · intro h
      have h0 := hlf h
      rw [countP_mid_false inCrit pre post ⟨.fetching, obs⟩ rfl] at h0
      show (pre ++ (⟨.finished, obs⟩ : TaskSt) :: post).countP inCrit = 0
      rw [countP_mid_false inCrit pre post ⟨.finished, obs⟩ rfl]
      omega
    · show (pre ++ (⟨.finished, obs⟩ : TaskSt) :: post).countP
          isLoggingIn = 0
      rw [countP_mid_false isLoggingIn pre post ⟨.finished, obs⟩ rfl]
      omega
    · intro t2 ht2 hpc2
      rcases List.mem_append.mp ht2 with h | h
      · exact hov t2 (List.mem_append.mpr (Or.inl h)) hpc2
      · rcases List.mem_cons.mp h with rfl | h
        · exact hov ⟨.fetching, obs⟩
            (List.mem_append.mpr (Or.inr (List.mem_cons_self _ _)))
            (Or.inl rfl)
        · exact hov t2
            (List.mem_append.mpr (Or.inr (List.mem_cons_of_mem _ h))) hpc2

/-- The cached-token invariant holds in every reachable state. -/
lemma cachedInv_reach (newTok : Nat → String) (t0 : String) (n : Nat)
    {s : GuardSt} (h : GuardReach newTok (some t0) n s) :
    CachedInv t0 s := by
  induction h with
  | refl =>
    have hz : ∀ p : TaskSt → Bool, p ⟨.waiting, none⟩ = false →
        (List.replicate n (⟨.waiting, none⟩ : TaskSt)).countP p = 0 := by
      intro p hp
      rw [List.countP_eq_zero]
      intro t ht
      rw [List.eq_of_mem_replicate ht, hp]
      exact Bool.noConfusion
    refine ⟨?_, ?_, rfl, rfl, ?_, ?_⟩
    · show (List.replicate n (⟨.waiting, none⟩ : TaskSt)).countP inCrit ≤ 1
      rw [hz inCrit rfl]; omega
    · intro _
      show (List.replicate n (⟨.waiting, none⟩ : TaskSt)).countP inCrit = 0
      exact hz inCrit rfl
    · show (List.replicate n
          (⟨.waiting, none⟩ : TaskSt)).countP isLoggingIn = 0
      exact hz isLoggingIn rfl
    · intro t ht hpc
      rw [List.eq_of_mem_replicate ht] at hpc
      rcases hpc with hpc | hpc <;> exact TPC.noConfusion hpc
  | tail _ hstep ih => exact cachedInv_step hstep ih

/-- Steps preserve the number of tasks. -/
lemma guardStep_len {newTok : Nat → String} {s s2 : GuardSt}
    (h : GuardStep newTok s s2) : s2.tasks.length = s.tasks.length := by
  cases h <;> simp

/-- Reachable states keep all `n` tasks. -/
lemma guardReach_len (newTok : Nat → String) (token0 : Option String)
    (n : Nat) {s : GuardSt} (h : GuardReach newTok token0 n s) :
    s.tasks.length = n := by
  induction h with
  | refl => simp [guardInit]
  | tail _ hstep ih => rw [guardStep_len hstep, ih]

/-- Claim C9: in every state reachable by `n` concurrent guarded callers
whose operations do not fail, at most one login is in flight and at most
one login has been issued; when all callers of a fresh-start run (no
cached token, `n ≥ 1`) have finished, exactly one login was issued and
every caller observed the token this single login produced; and callers
that start with a cached token never trigger a login and all observe the
cached token. -/
theorem token_guard_single_login (newTok : Nat → String) (n : Nat)
    (s : GuardSt) :
    (GuardReach newTok none n s →
      s.tasks.countP isLoggingIn ≤ 1 ∧ s.logins ≤ 1 ∧
      (0 < n → (∀ t ∈ s.tasks, t.pc = .finished) →
        s.logins = 1 ∧ ∀ t ∈ s.tasks, t.observed = some (newTok 0))) ∧
    (∀ t0, GuardReach newTok (some t0) n s →
      s.logins = 0 ∧
      ∀ t ∈ s.tasks, t.pc = .finished → t.observed = some t0) := by
  constructor
  · intro hreach
    obtain ⟨hmx, hlf, han, has, htv, hov⟩ := freshInv_reach newTok n hreach
    have hlen := guardReach_len newTok none n hreach
    have hflight : s.tasks.countP isLoggingIn ≤ 1 :=
      le_trans (isLoggingIn_le_inCrit s.tasks) hmx
    refine ⟨hflight, ?_, ?_⟩
    · cases htok : s.token with
      | some w => rw [has (by rw [htok]; rfl)]
      | none =>
        rw [han htok]
        exact hflight
    · intro hn hfin
      have hne : s.tasks ≠ [] := by
        intro hcontra
        rw [hcontra] at hlen
        simp at hlen
        omega
      obtain ⟨t, htmem⟩ := List.exists_mem_of_ne_nil s.tasks hne
      obtain ⟨v, hv, hvo⟩ := hov t htmem (Or.inr (hfin t htmem))
      have hveq := htv v hv
      subst hveq
      refine ⟨has (by rw [hv]; rfl), ?_⟩
      intro t2 ht2
      obtain ⟨v2, hv2, hvo2⟩ := hov t2 ht2 (Or.inr (hfin t2 ht2))
      rw [hv] at hv2
      rw [hvo2, Option.some.inj hv2]
  · intro t0 hreach
    obtain ⟨hmx, hlf, hts, hnl, hni, hov⟩ :=
      cachedInv_reach newTok t0 n hreach
    exact ⟨hnl, fun t ht hfin => hov t ht (Or.inr hfin)⟩

/-- Witness for C9: a complete one-caller fresh-start run, ending with one
login issued and the login token observed. -/
theorem token_guard_single_login_witness :
    (⟨some "T", false, 1, [⟨.finished, some "T"⟩]⟩ : GuardSt).logins = 1 ∧
    TaskSt.observed ⟨.finished, some "T"⟩ = some "T" := by
  have hreach : GuardReach (fun _ => "T") none 1
      ⟨some "T", false, 1, [⟨.finished, some "T"⟩]⟩ :=
    Relation.ReflTransGen.head
      (GuardStep.acquire none 0 none [] [])
      (Relation.ReflTransGen.head
        (GuardStep.loginBegin true 0 none [] [])
        (Relation.ReflTransGen.head
          (GuardStep.loginEnd none true 1 none [] [])
          (Relation.ReflTransGen.head
            (GuardStep.exitLock "T" true 1 none [] [])
            (Relation.ReflTransGen.head
              (GuardStep.fetchDone (some "T") false 1 (some "T") [] [])
              Relation.ReflTransGen.refl))))
  have hmain :=
    ((token_guard_single_login (fun _ => "T") 1
        ⟨some "T", false, 1, [⟨.finished, some "T"⟩]⟩).1 hreach).2.2
      (by omega)
      (by
        intro t ht
        rcases List.mem_singleton.mp ht with rfl
        rfl)
  exact ⟨hmain.1,
    hmain.2 ⟨.finished, some "T"⟩ (List.mem_singleton.mpr rfl)⟩

end StokerCloud
